import Mathlib

/-!
Verification model of the `bigset` Go library.

`bigset` keeps many named sets of serialisable values in a SQLite file.
Each named set is one SQLite table `(k BLOB UNIQUE, v BLOB)`; an element is
reduced to a `(key, payload)` pair of byte strings by the store's `mapper`
(`KVMapper`); the process keeps an advisory cache `names` of tables it has
already created.  We shallowly embed the library: the SQLite database becomes
an association list from table names to rows, each SQL statement issued by the
library becomes a pure function on that state with SQLite's documented
semantics (`INSERT ... ON CONFLICT (k) DO NOTHING`, `... DO UPDATE SET
v=excluded.v`, `DELETE ... WHERE k = ?`, `DELETE ... WHERE k IN (SELECT ...)`,
`SELECT COUNT(*)`, keyed `SELECT`), and every public operation returns the Go
pair `(int64, error)` — modelled as `Int × Option Err` — next to the updated
store.  Element serialisation may fail (Go `json.Marshal` / a custom key
function), so the mapper returns an `Option`; `json.Unmarshal` is modelled by
the `decode` field.  Reading a table that was never created is a SQLite
`no such table` error.  A compound `SELECT ... UNION SELECT ...` yields the
distinct rows of its sources in an order SQLite leaves unspecified (no
ORDER BY is issued), so that enumeration is an explicit parameter of the
model: `UnionWith` takes the enumeration function, `unionOrder` says which
enumerations are admissible (any ordering of the distinct rows), and the
executable `Union` instantiates one admissible enumeration.  Every
conclusion that depends on the enumeration order is proved about
`UnionWith` for all admissible orders.

Types: `T` is the element type, `K` the key-bytes type, `V` the
payload-bytes type.
-/

namespace Bigset

/-- Rows of one SQLite table `(k BLOB UNIQUE, v BLOB)`, in rowid order. -/
abbrev Rows (K V : Type) := List (K × V)

/-- The SQLite database: an association list from table name to rows. -/
abbrev DB (K V : Type) := List (String × Rows K V)

/-- Errors surfaced by the library, abstracting Go's `error` values:
a rejected set name, a failed key/payload derivation (or a failed
`json.Unmarshal`), and SQLite's `no such table`. -/
inductive Err where
  | validation
  | encoding
  | noSuchTable
  deriving DecidableEq, Repr

/-- The `Bigset[T]` struct: the database handle's state, the process-local
advisory `names` cache, the `mapper` (`KVMapper[T]`, fallible), and the
element decoder standing for `json.Unmarshal` into `T`. -/
structure Store (T K V : Type) where
  db : DB K V
  names : List String
  mapper : T → Option (K × V)
  decode : V → Option T

/-- The double-quote character SQLite uses to quote identifiers. -/
def dquote : Char := '"'

/-- One name check of `verifyNames`: the name must not contain `dquote`. -/
def validName (s : String) : Bool := !(s.data.contains dquote)

/-- `verifyNames(name, names...)`: every given name must be valid. -/
def verifyNames (name : String) (names : List String) : Bool :=
  validName name && names.all validName

/-- First row of `rows` whose key is `key`, as selected by
`SELECT v FROM t WHERE k = ?`. -/
def lookupKey [DecidableEq K] : Rows K V → K → Option V
  | [], _ => none
  | (k, v) :: rest, key => if k = key then some v else lookupKey rest key

/-- Whether `rows` holds a row keyed `key`. -/
def hasKey [DecidableEq K] (rows : Rows K V) (key : K) : Bool :=
  (lookupKey rows key).isSome

/-- The keys column of a table, in row order. -/
def rowKeys (rows : Rows K V) : List K := rows.map Prod.fst

/-- Look a table up by name (first binding wins, as names are unique). -/
def dbFind : DB K V → String → Option (Rows K V)
  | [], _ => none
  | (n, rows) :: rest, name => if n = name then some rows else dbFind rest name

/-- Replace the rows of table `name`; a no-op when the table is absent. -/
def dbSet : DB K V → String → Rows K V → DB K V
  | [], _, _ => []
  | (n, rows) :: rest, name, newRows =>
    if n = name then (n, newRows) :: rest else (n, rows) :: dbSet rest name newRows

/-- The rows of table `name`, or `[]` when the table is absent. -/
def tableOr (db : DB K V) (name : String) : Rows K V := (dbFind db name).getD []

/-- `CREATE TABLE IF NOT EXISTS "name" (k BLOB UNIQUE, v BLOB)`. -/
def createIfNotExists (db : DB K V) (name : String) : DB K V :=
  match dbFind db name with
  | some _ => db
  | none => db ++ [(name, [])]

/-- `initialise`: issue the CREATE TABLE and record the name in the cache. -/
def initialise (b : Store T K V) (name : String) : Store T K V :=
  { b with db := createIfNotExists b.db name, names := name :: b.names }

/-- The lazy-initialisation prologue shared by the mutating operations:
`if _, exists := b.names[name]; !exists { b.initialise(ctx, name) }`. -/
def ensureTable (b : Store T K V) (name : String) : Store T K V :=
  if name ∈ b.names then b else initialise b name

/-- Effect on a table of `INSERT INTO t(k, v) VALUES (?, ?) ON CONFLICT (k)
DO NOTHING` for one row, with the statement's affected-row count. -/
def insertIgnoreStep [DecidableEq K] (tbl : Rows K V) (k : K) (v : V) : Rows K V × Nat :=
  if hasKey tbl k then (tbl, 0) else (tbl ++ [(k, v)], 1)

/-- `UPDATE t SET v = ? WHERE k = ?`: rewrite the payload of every row keyed
`k` (at most one under the UNIQUE constraint) and count the rows updated. -/
def updateKey [DecidableEq K] : Rows K V → K → V → Rows K V × Nat
  | [], _, _ => ([], 0)
  | (k0, v0) :: rest, k, v =>
    let r := updateKey rest k v
    if k0 = k then ((k0, v) :: r.1, r.2 + 1) else ((k0, v0) :: r.1, r.2)

/-- Effect of `INSERT ... ON CONFLICT (k) DO UPDATE SET v=excluded.v` for one
row: update in place on conflict, append otherwise; one row is affected
either way. -/
def upsertStep [DecidableEq K] (tbl : Rows K V) (k : K) (v : V) : Rows K V × Nat :=
  if hasKey tbl k then ((updateKey tbl k v).1, 1) else (tbl ++ [(k, v)], 1)

/-- Effect of `Refresh`'s statement (`WITH x ... UPDATE t SET v = ? FROM x
WHERE t.k = x.k`) for one row: a keyed update that inserts nothing. -/
def refreshStep [DecidableEq K] (tbl : Rows K V) (k : K) (v : V) : Rows K V × Nat :=
  updateKey tbl k v

/-- `DELETE FROM t WHERE k = ?`: drop every row keyed `k` and count them. -/
def deleteKey [DecidableEq K] : Rows K V → K → Rows K V × Nat
  | [], _ => ([], 0)
  | (k0, v0) :: rest, k =>
    let r := deleteKey rest k
    if k0 = k then (r.1, r.2 + 1) else ((k0, v0) :: r.1, r.2)

/-- Effect of `Discard`'s statement for one element; the payload bytes are
derived but unused. -/
def discardStep [DecidableEq K] (tbl : Rows K V) (k : K) (_ : V) : Rows K V × Nat :=
  deleteKey tbl k

/-- The per-element loop shared by `add` (hence `Add`, `Supersede`,
`Refresh`) and `Discard`: derive `(k, v)` for each element in order and
execute the prepared statement, accumulating the affected-row count; a
failed derivation aborts immediately, leaving the effects of the elements
already processed in place (each statement autocommits — there is no
enclosing transaction in the source). -/
def execLoop [DecidableEq K] (step : Rows K V → K → V → Rows K V × Nat)
    (mapper : T → Option (K × V)) :
    List T → Rows K V → Int → (Int × Option Err) × Rows K V
  | [], tbl, acc => ((acc, none), tbl)
  | t :: rest, tbl, acc =>
    match mapper t with
    | none => ((-1, some .encoding), tbl)
    | some (k, v) =>
      let r := step tbl k v
      execLoop step mapper rest r.1 (acc + r.2)

/-- The shared mutator `add` (also the shape of `Discard`): validate the
name, lazily initialise the table, prepare the statement (failing with
`no such table` if the table is somehow still absent), then run the
per-element loop and write the table back. -/
def add [DecidableEq K] (step : Rows K V → K → V → Rows K V × Nat)
    (b : Store T K V) (name : String) (values : List T) :
    (Int × Option Err) × Store T K V :=
  if verifyNames name [] then
    let b := ensureTable b name
    match dbFind b.db name with
    | none => ((-1, some .noSuchTable), b)
    | some tbl =>
      let r := execLoop step b.mapper values tbl 0
      (r.1, { b with db := dbSet b.db name r.2 })
  else ((-1, some .validation), b)

/-- `Add`: insert elements, skipping keys already present. -/
def Add [DecidableEq K] (b : Store T K V) (name : String) (values : List T) :
    (Int × Option Err) × Store T K V :=
  add insertIgnoreStep b name values

/-- `Supersede`: insert elements, replacing existing elements with the same
key. -/
def Supersede [DecidableEq K] (b : Store T K V) (name : String) (values : List T) :
    (Int × Option Err) × Store T K V :=
  add upsertStep b name values

/-- `Refresh`: replace elements with new payloads, only where the key
already exists. -/
def Refresh [DecidableEq K] (b : Store T K V) (name : String) (values : List T) :
    (Int × Option Err) × Store T K V :=
  add refreshStep b name values

/-- `Discard`: remove elements, if present. -/
def Discard [DecidableEq K] (b : Store T K V) (name : String) (values : List T) :
    (Int × Option Err) × Store T K V :=
  add discardStep b name values

/-- `Cardinality`: `SELECT COUNT(*) FROM "name"`.  The table is not
initialised first, so counting a never-created set is a `no such table`
error. -/
def Cardinality (b : Store T K V) (name : String) : Int × Option Err :=
  if verifyNames name [] then
    match dbFind b.db name with
    | none => (-1, some .noSuchTable)
    | some tbl => ((tbl.length : Int), none)
  else (-1, some .validation)

/-- `RetrieveIfExists`: derive the probe's key, `SELECT v ... WHERE k = ?`,
decode the first row if any; a missing key is `(nil, nil)` in Go, here
`(none, none)`. -/
def RetrieveIfExists [DecidableEq K] (b : Store T K V) (name : String) (t : T) :
    Option T × Option Err :=
  if verifyNames name [] then
    match b.mapper t with
    | none => (none, some .encoding)
    | some (k, _) =>
      match dbFind b.db name with
      | none => (none, some .noSuchTable)
      | some rows =>
        match lookupKey rows k with
        | none => (none, none)
        | some v =>
          match b.decode v with
          | none => (none, some .encoding)
          | some t0 => (some t0, none)
  else (none, some .validation)

/-- Rows of the sources of a `Union`, concatenated in argument order;
`none` when some source table does not exist. -/
def collectRows : DB K V → List String → Option (List (K × V))
  | _, [] => some []
  | db, s :: rest =>
    match dbFind db s with
    | none => none
    | some rows => (collectRows db rest).map (rows ++ ·)

/-- Full-row deduplication keeping first occurrences, with `seen` the rows
already emitted: the distinct rows SQL `UNION` produces from the
concatenated source rows, here enumerated in first-source-first order —
one admissible enumeration among those `unionOrder` admits. -/
def dedupKeep [DecidableEq α] (seen : List α) : List α → List α
  | [] => []
  | x :: xs => if x ∈ seen then dedupKeep seen xs else x :: dedupKeep (x :: seen) xs

/-- `INSERT INTO target ... ON CONFLICT (k) DO NOTHING` of a row sequence:
insert the rows in order, skipping keys already present, and count the rows
actually inserted. -/
def insertIgnoreAll [DecidableEq K] : Rows K V → List (K × V) → Rows K V × Nat
  | tbl, [] => (tbl, 0)
  | tbl, (k, v) :: rest =>
    if hasKey tbl k then insertIgnoreAll tbl rest
    else
      let r := insertIgnoreAll (tbl ++ [(k, v)]) rest
      (r.1, r.2 + 1)

/-- `Union`, order-faithfully: one `INSERT INTO target SELECT k, v FROM s0
WHERE true UNION SELECT ... ON CONFLICT (k) DO NOTHING` statement.  SQL
`UNION` produces the distinct rows of the sources, and in which order the
engine feeds them to the INSERT is unspecified (SQLite documents no order
for a compound SELECT without ORDER BY), so the enumeration is the explicit
parameter `ord`, constrained by `unionOrder` wherever a conclusion depends
on it. -/
def UnionWith [DecidableEq K] [DecidableEq V] (ord : List (K × V) → List (K × V))
    (b : Store T K V) (target : String) (sources : List String) :
    (Int × Option Err) × Store T K V :=
  if verifyNames target sources then
    let b := ensureTable b target
    match sources with
    | [] => ((0, none), b)
    | _ :: _ =>
      match dbFind b.db target, collectRows b.db sources with
      | some tbl, some rows =>
        let r := insertIgnoreAll tbl (ord rows)
        (((r.2 : Int), none), { b with db := dbSet b.db target r.1 })
      | _, _ => ((-1, some .noSuchTable), b)
  else ((-1, some .validation), b)

/-- The admissible enumerations of a compound UNION SELECT: any ordering of
its distinct rows.  `dedupKeep []` (first-source-first) and its reverse are
both admissible; the engine guarantees no particular one. -/
def unionOrder [DecidableEq K] [DecidableEq V]
    (ord : List (K × V) → List (K × V)) : Prop :=
  ∀ rows : List (K × V), (ord rows).Perm (dedupKeep [] rows)

/-- `Union`: add every element of each source set to the target set,
keeping rows the target already has.  Executable instance of `UnionWith` at
one admissible enumeration; conclusions that depend on the enumeration
order are stated about `UnionWith` for every admissible `ord`. -/
def Union [DecidableEq K] [DecidableEq V] (b : Store T K V) (target : String)
    (sources : List String) : (Int × Option Err) × Store T K V :=
  UnionWith (dedupKeep []) b target sources

/-- Rows of each listed table, `none` when one does not exist. -/
def collectTables : DB K V → List String → Option (List (Rows K V))
  | _, [] => some []
  | db, s :: rest =>
    match dbFind db s with
    | none => none
    | some rows => (collectTables db rest).map (rows :: ·)

/-- Rows produced by `SELECT k, s1.v FROM s1 INNER JOIN s2 USING (k) ...`:
the first source's rows whose key every other source also has, in the first
source's order. -/
def interRows [DecidableEq K] (first : Rows K V) (rest : List (Rows K V)) :
    List (K × V) :=
  first.filter fun p => rest.all fun s => hasKey s p.1

/-- `Intersection`: add to the target the elements present in every source
set, keeping rows the target already has. -/
def Intersection [DecidableEq K] (b : Store T K V) (target : String)
    (sources : List String) : (Int × Option Err) × Store T K V :=
  if verifyNames target sources then
    let b := ensureTable b target
    match sources with
    | [] => ((0, none), b)
    | s0 :: srest =>
      match dbFind b.db target, dbFind b.db s0, collectTables b.db srest with
      | some tbl, some rows0, some rowsRest =>
        let r := insertIgnoreAll tbl (interRows rows0 rowsRest)
        (((r.2 : Int), none), { b with db := dbSet b.db target r.1 })
      | _, _, _ => ((-1, some .noSuchTable), b)
  else ((-1, some .validation), b)

/-- `DELETE FROM target WHERE k IN (SELECT k FROM source)`: drop every row
whose key the source has, counting the dropped rows. -/
def deleteMatching [DecidableEq K] : Rows K V → List K → Rows K V × Nat
  | [], _ => ([], 0)
  | (k, v) :: rest, ks =>
    let r := deleteMatching rest ks
    if k ∈ ks then (r.1, r.2 + 1) else ((k, v) :: r.1, r.2)

/-- `Subtract`'s per-source loop: one DELETE statement per source, each
applied and autocommitted separately; a missing table aborts with the
deletions of earlier sources kept. -/
def subtractLoop [DecidableEq K] (target : String) :
    DB K V → List String → Int → (Int × Option Err) × DB K V
  | db, [], acc => ((acc, none), db)
  | db, s :: rest, acc =>
    match dbFind db target, dbFind db s with
    | some tbl, some srows =>
      let r := deleteMatching tbl (rowKeys srows)
      subtractLoop target (dbSet db target r.1) rest (acc + r.2)
    | _, _ => ((-1, some .noSuchTable), db)

/-- `Subtract`: remove from the target the rows present in at least one
source.  A target missing from the `names` cache is initialised and the
call returns 0 at once, scanning no source. -/
def Subtract [DecidableEq K] (b : Store T K V) (target : String)
    (sources : List String) : (Int × Option Err) × Store T K V :=
  if verifyNames target sources then
    if target ∈ b.names then
      match sources with
      | [] => ((0, none), b)
      | _ :: _ =>
        let r := subtractLoop target b.db sources 0
        (r.1, { b with db := r.2 })
    else ((0, none), initialise b target)
  else ((-1, some .validation), b)

/-- The `names` cache is advisory but sound: every cached name has a table.
Reachable states satisfy this — `initialise` records a name only after its
CREATE TABLE succeeded, and this layer never drops a table. -/
def cacheConsistent (b : Store T K V) : Prop :=
  ∀ n ∈ b.names, (dbFind b.db n).isSome = true

/-- Characterisation helper: the rows a conflict-ignoring bulk insert adds
when the keys in `ks` are already taken — the first row of each key not in
`ks`, in order. -/
def newRowsAfter [DecidableEq K] (ks : List K) : List (K × V) → List (K × V)
  | [] => []
  | (k, v) :: rest =>
    if k ∈ ks then newRowsAfter ks rest else (k, v) :: newRowsAfter (k :: ks) rest

/-- Characterisation helper: the distinct members of a key list that are not
in `ks`, first occurrences first. -/
def keysNew [DecidableEq K] (ks : List K) : List K → List K
  | [] => []
  | k :: rest => if k ∈ ks then keysNew ks rest else k :: keysNew (k :: ks) rest

/-- Characterisation helper: the payload of the last pair keyed `key` in a
write sequence, if any. -/
def lastWrite [DecidableEq K] : List (K × V) → K → Option V
  | [], _ => none
  | (k, v) :: rest, key =>
    match lastWrite rest key with
    | some v0 => some v0
    | none => if k = key then some v else none

/-- Characterisation helper: run a per-row statement over a row sequence,
threading the table and summing the affected-row counts; the pure core of
`execLoop` once every derivation succeeds. -/
def applyAll (step : Rows K V → K → V → Rows K V × Nat) :
    Rows K V → List (K × V) → Rows K V × Nat
  | tbl, [] => (tbl, 0)
  | tbl, (k, v) :: rest =>
    let s := step tbl k v
    let r := applyAll step s.1 rest
    (r.1, s.2 + r.2)

/-- The concatenated rows of the named tables, argument order first,
missing tables contributing nothing. -/
def srcRows (db : DB K V) : List String → List (K × V)
  | [] => []
  | s :: rest => tableOr db s ++ srcRows db rest

/-- The count/error contract of every count-returning operation: `-1`
exactly when the error is non-nil, a non-negative count otherwise. -/
def retContract (r : Int × Option Err) : Prop :=
  (r.1 = -1 ↔ r.2 ≠ none) ∧ (r.2 = none → 0 ≤ r.1)

/-- A concrete store over `Nat` elements with the default identity-style
mapper (key = payload = the element). -/
def idStore (db : DB Nat Nat) (names : List String) : Store Nat Nat Nat :=
  { db := db, names := names, mapper := fun t => some (t, t), decode := fun v => some v }

/-- A concrete store whose key function is the element modulo 10 (as in the
repository's `TestKeyFunction`), payload the element itself. -/
def modStore (db : DB Nat Nat) (names : List String) : Store Nat Nat Nat :=
  { db := db, names := names, mapper := fun t => some (t % 10, t), decode := fun v => some v }

/-- A concrete store whose mapper fails to encode the element `13`,
standing for a value `json.Marshal` rejects. -/
def failStore (db : DB Nat Nat) (names : List String) : Store Nat Nat Nat :=
  { db := db, names := names,
    mapper := fun t => if t = 13 then none else some (t, t),
    decode := fun v => some v }

/-! Basic lemmas about the table and database primitives. -/

theorem lookupKey_append [DecidableEq K] (a b : Rows K V) (k : K) :
    lookupKey (a ++ b) k =
      match lookupKey a k with
      | some v => some v
      | none => lookupKey b k := by
  induction a with
  | nil => rfl
  | cons p rest ih =>
    obtain ⟨k0, v0⟩ := p
    by_cases h : k0 = k
    · simp [lookupKey, h]
    · simp [lookupKey, h, ih]

theorem hasKey_iff_mem [DecidableEq K] (rows : Rows K V) (k : K) :
    hasKey rows k = true ↔ k ∈ rowKeys rows := by
  induction rows with
  | nil => simp [hasKey, lookupKey, rowKeys]
  | cons p rest ih =>
    obtain ⟨k0, v0⟩ := p
    by_cases h : k0 = k
    · simp [hasKey, lookupKey, rowKeys, h]
    · simp only [hasKey, lookupKey, if_neg h, rowKeys, List.map_cons, List.mem_cons]
      rw [← rowKeys]
      constructor
      · intro hh
        exact Or.inr ((ih).mp hh)
      · intro hh
        rcases hh with hh | hh
        · exact absurd hh.symm h
        · exact (ih).mpr hh

theorem lookupKey_eq_none_of_not_hasKey [DecidableEq K] (rows : Rows K V) (k : K)
    (h : hasKey rows k = false) : lookupKey rows k = none := by
  cases hl : lookupKey rows k with
  | none => rfl
  | some v => rw [hasKey, hl] at h; simp at h

theorem rowKeys_append (a b : Rows K V) : rowKeys (a ++ b) = rowKeys a ++ rowKeys b := by
  simp [rowKeys]

theorem dbFind_append (d1 d2 : DB K V) (n : String) :
    dbFind (d1 ++ d2) n =
      match dbFind d1 n with
      | some r => some r
      | none => dbFind d2 n := by
  induction d1 with
  | nil => rfl
  | cons p rest ih =>
    obtain ⟨m, rows⟩ := p
    by_cases h : m = n <;> simp [dbFind, h, ih]

theorem createIfNotExists_find_self (db : DB K V) (name : String) :
    dbFind (createIfNotExists db name) name = some (tableOr db name) := by
  cases h : dbFind db name with
  | some rows => simp [createIfNotExists, h, tableOr]
  | none => simp [createIfNotExists, h, tableOr, dbFind_append, dbFind]

theorem createIfNotExists_find_other (db : DB K V) (name n : String) (h : n ≠ name) :
    dbFind (createIfNotExists db name) n = dbFind db n := by
  cases hf : dbFind db name with
  | some rows => simp [createIfNotExists, hf]
  | none =>
    rw [createIfNotExists, hf, dbFind_append]
    cases hn : dbFind db n with
    | some r => rfl
    | none => simp [dbFind, if_neg (Ne.symm h)]

theorem dbSet_find_self (db : DB K V) (name : String) (rows : Rows K V)
    (h : (dbFind db name).isSome = true) :
    dbFind (dbSet db name rows) name = some rows := by
  induction db with
  | nil => simp [dbFind] at h
  | cons p rest ih =>
    obtain ⟨m, r0⟩ := p
    by_cases hm : m = name
    · simp [dbSet, dbFind, hm]
    · simp only [dbFind, if_neg hm] at h
      simp [dbSet, dbFind, hm, ih h]

theorem dbSet_find_other (db : DB K V) (name n : String) (rows : Rows K V) (h : n ≠ name) :
    dbFind (dbSet db name rows) n = dbFind db n := by
  induction db with
  | nil => rfl
  | cons p rest ih =>
    obtain ⟨m, r0⟩ := p
    by_cases hm : m = name
    · subst hm
      simp [dbSet, dbFind, if_neg (Ne.symm h)]
    · by_cases hn : m = n
      · subst hn
        simp [dbSet, dbFind, if_neg h, if_neg hm]
      · simp [dbSet, dbFind, hm, hn, ih]

theorem ensureTable_mapper (b : Store T K V) (name : String) :
    (ensureTable b name).mapper = b.mapper := by
  by_cases h : name ∈ b.names <;> simp [ensureTable, initialise, h]

theorem ensureTable_decode (b : Store T K V) (name : String) :
    (ensureTable b name).decode = b.decode := by
  by_cases h : name ∈ b.names <;> simp [ensureTable, initialise, h]

theorem ensureTable_find_self (b : Store T K V) (name : String) (hc : cacheConsistent b) :
    dbFind (ensureTable b name).db name = some (tableOr b.db name) := by
  by_cases h : name ∈ b.names
  · have hs := hc name h
    cases hf : dbFind b.db name with
    | some rows => simp [ensureTable, h, tableOr, hf]
    | none => rw [hf] at hs; simp at hs
  · simp [ensureTable, h, initialise, createIfNotExists_find_self]

theorem ensureTable_find_other (b : Store T K V) (name n : String) (h : n ≠ name) :
    dbFind (ensureTable b name).db n = dbFind b.db n := by
  by_cases hm : name ∈ b.names
  · simp [ensureTable, hm]
  · simp [ensureTable, hm, initialise, createIfNotExists_find_other b.db name n h]

/-! Lemmas about the shared per-element mutator loop. -/

theorem execLoop_ok [DecidableEq K] (step : Rows K V → K → V → Rows K V × Nat)
    (mapper : T → Option (K × V)) :
    ∀ (values : List T) (tbl : Rows K V) (acc : Int),
      (∀ v ∈ values, (mapper v).isSome = true) →
      execLoop step mapper values tbl acc =
        ((acc + ((applyAll step tbl (values.filterMap mapper)).2 : Int), none),
          (applyAll step tbl (values.filterMap mapper)).1) := by
  intro values
  induction values with
  | nil => intro tbl acc h; simp [execLoop, applyAll]
  | cons t rest ih =>
    intro tbl acc h
    have ht : (mapper t).isSome = true := h t (by simp)
    obtain ⟨⟨k, v⟩, hkv⟩ := Option.isSome_iff_exists.mp ht
    have hrest : ∀ x ∈ rest, (mapper x).isSome = true := fun x hx => h x (by simp [hx])
    simp only [execLoop, hkv]
    rw [ih _ _ hrest]
    simp only [List.filterMap_cons, hkv, applyAll]
    refine Prod.ext (Prod.ext ?_ rfl) rfl
    push_cast
    ring

theorem execLoop_fail [DecidableEq K] (step : Rows K V → K → V → Rows K V × Nat)
    (mapper : T → Option (K × V)) (bad : T) (hb : mapper bad = none) :
    ∀ (good : List T) (rest : List T) (tbl : Rows K V) (acc : Int),
      (∀ v ∈ good, (mapper v).isSome = true) →
      execLoop step mapper (good ++ bad :: rest) tbl acc =
        ((-1, some .encoding), (applyAll step tbl (good.filterMap mapper)).1) := by
  intro good
  induction good with
  | nil =>
    intro rest tbl acc h
    simp only [List.nil_append, execLoop, hb, List.filterMap_nil, applyAll]
  | cons t gtail ih =>
    intro rest tbl acc h
    have ht : (mapper t).isSome = true := h t (by simp)
    obtain ⟨⟨k, v⟩, hkv⟩ := Option.isSome_iff_exists.mp ht
    have htail : ∀ x ∈ gtail, (mapper x).isSome = true := fun x hx => h x (by simp [hx])
    simp only [List.cons_append, execLoop, hkv, List.append_eq]
    rw [ih _ _ _ htail]
    simp [List.filterMap_cons, hkv, applyAll]

theorem length_filterMap_of_isSome (mapper : T → Option (K × V)) :
    ∀ (values : List T), (∀ v ∈ values, (mapper v).isSome = true) →
      (values.filterMap mapper).length = values.length := by
  intro values
  induction values with
  | nil => simp
  | cons t rest ih =>
    intro h
    obtain ⟨⟨k, v⟩, hkv⟩ := Option.isSome_iff_exists.mp (h t (by simp))
    have hrest : ∀ x ∈ rest, (mapper x).isSome = true := fun x hx => h x (by simp [hx])
    simp [List.filterMap_cons, hkv, ih hrest]

/-! Lemmas about the shared mutator entry point. -/

theorem add_eq_ok [DecidableEq K] (step : Rows K V → K → V → Rows K V × Nat)
    (b : Store T K V) (name : String) (values : List T)
    (hn : validName name = true) (hc : cacheConsistent b)
    (hm : ∀ v ∈ values, (b.mapper v).isSome = true) :
    add step b name values =
      ((((applyAll step (tableOr b.db name) (values.filterMap b.mapper)).2 : Int), none),
        { ensureTable b name with
          db := dbSet (ensureTable b name).db name
            (applyAll step (tableOr b.db name) (values.filterMap b.mapper)).1 }) := by
  have hv : verifyNames name [] = true := by simp [verifyNames, hn]
  rw [add, if_pos hv]
  simp only [ensureTable_find_self b name hc, ensureTable_mapper]
  rw [execLoop_ok step b.mapper values _ 0 hm]
  simp

theorem add_eq_fail [DecidableEq K] (step : Rows K V → K → V → Rows K V × Nat)
    (b : Store T K V) (name : String) (good : List T) (bad : T) (rest : List T)
    (hn : validName name = true) (hc : cacheConsistent b)
    (hg : ∀ v ∈ good, (b.mapper v).isSome = true) (hb : b.mapper bad = none) :
    add step b name (good ++ bad :: rest) =
      ((-1, some .encoding),
        { ensureTable b name with
          db := dbSet (ensureTable b name).db name
            (applyAll step (tableOr b.db name) (good.filterMap b.mapper)).1 }) := by
  have hv : verifyNames name [] = true := by simp [verifyNames, hn]
  rw [add, if_pos hv]
  simp only [ensureTable_find_self b name hc, ensureTable_mapper]
  rw [execLoop_fail step b.mapper bad hb good rest _ 0 hg]

/-! Lemmas about conflict-ignoring insertion. -/

theorem rowKeys_cons (k : K) (v : V) (rest : Rows K V) :
    rowKeys ((k, v) :: rest) = k :: rowKeys rest := rfl

theorem length_eq_rowKeys_length (l : Rows K V) : l.length = (rowKeys l).length := by
  simp [rowKeys]

theorem applyAll_insertIgnore_eq [DecidableEq K] :
    ∀ (ms : List (K × V)) (tbl : Rows K V),
      applyAll insertIgnoreStep tbl ms = insertIgnoreAll tbl ms := by
  intro ms
  induction ms with
  | nil => intro tbl; rfl
  | cons p rest ih =>
    intro tbl
    obtain ⟨k, v⟩ := p
    by_cases h : hasKey tbl k = true
    · simp [applyAll, insertIgnoreAll, insertIgnoreStep, h, ih]
    · simp [applyAll, insertIgnoreAll, insertIgnoreStep, h, ih, Nat.add_comm]

theorem insertIgnoreAll_spec [DecidableEq K] :
    ∀ (ms : List (K × V)) (tbl : Rows K V) (ks : List K),
      (∀ k, k ∈ ks ↔ k ∈ rowKeys tbl) →
      insertIgnoreAll tbl ms = (tbl ++ newRowsAfter ks ms, (newRowsAfter ks ms).length) := by
  intro ms
  induction ms with
  | nil => intro tbl ks h; simp [insertIgnoreAll, newRowsAfter]
  | cons p rest ih =>
    intro tbl ks h
    obtain ⟨k, v⟩ := p
    by_cases hk : hasKey tbl k = true
    · have hks : k ∈ ks := (h k).mpr ((hasKey_iff_mem tbl k).mp hk)
      simp only [insertIgnoreAll, if_pos hk, newRowsAfter, if_pos hks]
      exact ih tbl ks h
    · have hks : k ∉ ks := fun hmem => hk ((hasKey_iff_mem tbl k).mpr ((h k).mp hmem))
      have h2 : ∀ k0, k0 ∈ k :: ks ↔ k0 ∈ rowKeys (tbl ++ [(k, v)]) := by
        intro k0
        rw [rowKeys_append]
        constructor
        · intro hm
          rcases List.mem_cons.mp hm with hm | hm
          · subst hm; simp [rowKeys]
          · exact List.mem_append.mpr (Or.inl ((h k0).mp hm))
        · intro hm
          rcases List.mem_append.mp hm with hm | hm
          · exact List.mem_cons.mpr (Or.inr ((h k0).mpr hm))
          · simp only [rowKeys, List.map_cons, List.map_nil, List.mem_singleton] at hm
            subst hm
            exact List.mem_cons_self _ _
      simp only [insertIgnoreAll, if_neg hk, newRowsAfter, if_neg hks]
      rw [ih (tbl ++ [(k, v)]) (k :: ks) h2]
      simp [List.append_assoc]

theorem newRowsAfter_mem [DecidableEq K] :
    ∀ (ms : List (K × V)) (ks : List K) (k : K) (v : V),
      (k, v) ∈ newRowsAfter ks ms → k ∉ ks ∧ lookupKey ms k = some v := by
  intro ms
  induction ms with
  | nil => intro ks k v h; simp [newRowsAfter] at h
  | cons p rest ih =>
    intro ks k v h
    obtain ⟨k0, v0⟩ := p
    by_cases h0 : k0 ∈ ks
    · rw [newRowsAfter, if_pos h0] at h
      obtain ⟨hks, hl⟩ := ih ks k v h
      have hne : k0 ≠ k := fun he => hks (he ▸ h0)
      exact ⟨hks, by simp [lookupKey, hne, hl]⟩
    · rw [newRowsAfter, if_neg h0] at h
      rcases List.mem_cons.mp h with he | hm
      · rw [Prod.mk.injEq] at he
        obtain ⟨h1, h2⟩ := he
        subst h1; subst h2
        exact ⟨h0, by simp [lookupKey]⟩
      · obtain ⟨hks, hl⟩ := ih (k0 :: ks) k v hm
        have hne : k0 ≠ k := fun he => hks (he ▸ List.mem_cons_self k0 ks)
        exact ⟨fun hk => hks (List.mem_cons_of_mem _ hk), by simp [lookupKey, hne, hl]⟩

theorem newRowsAfter_complete [DecidableEq K] :
    ∀ (ms : List (K × V)) (ks : List K) (k : K),
      hasKey ms k = true → k ∉ ks → hasKey (newRowsAfter ks ms) k = true := by
  intro ms
  induction ms with
  | nil => intro ks k h; simp [hasKey, lookupKey] at h
  | cons p rest ih =>
    intro ks k h hks
    obtain ⟨k0, v0⟩ := p
    by_cases h0 : k0 = k
    · subst h0
      rw [newRowsAfter, if_neg hks]
      simp [hasKey, lookupKey]
    · have hr : hasKey rest k = true := by simpa [hasKey, lookupKey, h0] using h
      by_cases hin : k0 ∈ ks
      · rw [newRowsAfter, if_pos hin]
        exact ih ks k hr hks
      · rw [newRowsAfter, if_neg hin]
        have hnotin : k ∉ k0 :: ks := by
          intro hc
          rcases List.mem_cons.mp hc with hc | hc
          · exact h0 hc.symm
          · exact hks hc
        have := ih (k0 :: ks) k hr hnotin
        simpa [hasKey, lookupKey, h0] using this

theorem rowKeys_newRowsAfter [DecidableEq K] :
    ∀ (ms : List (K × V)) (ks : List K),
      rowKeys (newRowsAfter ks ms) = keysNew ks (rowKeys ms) := by
  intro ms
  induction ms with
  | nil => intro ks; rfl
  | cons p rest ih =>
    intro ks
    obtain ⟨k, v⟩ := p
    by_cases h : k ∈ ks
    · simp only [newRowsAfter, if_pos h, rowKeys_cons, keysNew, ih]
      rfl
    · simp only [newRowsAfter, if_neg h, rowKeys_cons, keysNew, ih]
      rfl

theorem keysNew_length_le [DecidableEq K] :
    ∀ (l ks : List K), (keysNew ks l).length ≤ l.length := by
  intro l
  induction l with
  | nil => intro ks; simp [keysNew]
  | cons k rest ih =>
    intro ks
    by_cases h : k ∈ ks
    · rw [keysNew, if_pos h]
      have := ih ks
      simp only [List.length_cons]
      omega
    · rw [keysNew, if_neg h]
      have := ih (k :: ks)
      simp only [List.length_cons]
      omega

theorem keysNew_length_lt_of_mem [DecidableEq K] :
    ∀ (l ks : List K) (k : K), k ∈ ks → k ∈ l → (keysNew ks l).length < l.length := by
  intro l
  induction l with
  | nil => intro ks k h1 h2; simp at h2
  | cons k0 rest ih =>
    intro ks k h1 h2
    by_cases h : k0 ∈ ks
    · rw [keysNew, if_pos h]
      have := keysNew_length_le rest ks
      simp only [List.length_cons]
      omega
    · rw [keysNew, if_neg h]
      have hk : k ∈ rest := by
        rcases List.mem_cons.mp h2 with he | hm
        · exact absurd (he ▸ h1) h
        · exact hm
      have := ih (k0 :: ks) k (List.mem_cons_of_mem _ h1) hk
      simp only [List.length_cons]
      omega

theorem keysNew_length_lt_of_dup [DecidableEq K] :
    ∀ (l ks : List K), ¬ l.Nodup → (keysNew ks l).length < l.length := by
  intro l
  induction l with
  | nil => intro ks h; exact absurd List.nodup_nil h
  | cons k rest ih =>
    intro ks h
    by_cases hk : k ∈ ks
    · rw [keysNew, if_pos hk]
      have := keysNew_length_le rest ks
      simp only [List.length_cons]
      omega
    · rw [keysNew, if_neg hk]
      by_cases hmem : k ∈ rest
      · have := keysNew_length_lt_of_mem rest (k :: ks) k (List.mem_cons_self k ks) hmem
        simp only [List.length_cons]
        omega
      · have hnd : ¬ rest.Nodup := fun hn => h (List.nodup_cons.mpr ⟨hmem, hn⟩)
        have := ih (k :: ks) hnd
        simp only [List.length_cons]
        omega

/-! Lemmas about full-row deduplication (the effect of SQL UNION). -/

theorem dedupKeep_lookup [DecidableEq K] [DecidableEq V] :
    ∀ (l seen : List (K × V)) (k : K),
      (∀ p ∈ seen, (p : K × V).1 ≠ k) →
      lookupKey (dedupKeep seen l) k = lookupKey l k := by
  intro l
  induction l with
  | nil => intro seen k h; rfl
  | cons p rest ih =>
    intro seen k h
    obtain ⟨k0, v0⟩ := p
    by_cases hp : (k0, v0) ∈ seen
    · rw [dedupKeep, if_pos hp, ih seen k h]
      have hk0 : k0 ≠ k := h (k0, v0) hp
      simp [lookupKey, hk0]
    · rw [dedupKeep, if_neg hp]
      by_cases hk0 : k0 = k
      · subst hk0
        simp [lookupKey]
      · simp only [lookupKey, if_neg hk0]
        refine ih ((k0, v0) :: seen) k ?_
        intro q hq
        rcases List.mem_cons.mp hq with he | hm
        · subst he; exact hk0
        · exact h q hm

theorem dedupKeep_hasKey [DecidableEq K] [DecidableEq V] (l : List (K × V)) (k : K) :
    hasKey (dedupKeep [] l) k = hasKey l k := by
  rw [hasKey, hasKey, dedupKeep_lookup l [] k (by intro p hp; simp at hp)]

/-! Lemmas about source-row collection for Union. -/

theorem collectRows_eq_srcRows :
    ∀ (sources : List String) (db : DB K V),
      (∀ s ∈ sources, (dbFind db s).isSome = true) →
      collectRows db sources = some (srcRows db sources) := by
  intro sources
  induction sources with
  | nil => intro db h; rfl
  | cons s rest ih =>
    intro db h
    obtain ⟨rows, hrows⟩ := Option.isSome_iff_exists.mp (h s (by simp))
    rw [collectRows, hrows, ih db (fun x hx => h x (by simp [hx]))]
    simp [srcRows, tableOr, hrows]

theorem lookupKey_srcRows [DecidableEq K] :
    ∀ (sources : List String) (db : DB K V) (k : K) (v : V),
      lookupKey (srcRows db sources) k = some v →
      ∃ i, ∃ h : i < sources.length,
        lookupKey (tableOr db (sources.get ⟨i, h⟩)) k = some v ∧
        ∀ j (hj : j < i),
          hasKey (tableOr db (sources.get ⟨j, Nat.lt_trans hj h⟩)) k = false := by
  intro sources
  induction sources with
  | nil => intro db k v h; simp [srcRows, lookupKey] at h
  | cons s rest ih =>
    intro db k v h
    rw [srcRows, lookupKey_append] at h
    cases hs : lookupKey (tableOr db s) k with
    | some v0 =>
      rw [hs] at h
      simp only at h
      refine ⟨0, by simp, ?_, ?_⟩
      · simpa [List.get] using hs.trans h
      · intro j hj
        exact absurd hj (Nat.not_lt_zero j)
    | none =>
      rw [hs] at h
      simp only at h
      obtain ⟨i, hlen, hlook, hprev⟩ := ih db k v h
      refine ⟨i + 1, Nat.succ_lt_succ hlen, ?_, ?_⟩
      · simpa [List.get] using hlook
      · intro j hj
        cases j with
        | zero => simp [List.get, hasKey, hs]
        | succ j0 =>
          have := hprev j0 (Nat.lt_of_succ_lt_succ hj)
          simpa [List.get] using this

/-! Lemmas about the keyed UPDATE statement. -/

theorem updateKey_rowKeys [DecidableEq K] :
    ∀ (tbl : Rows K V) (k : K) (v : V), rowKeys (updateKey tbl k v).1 = rowKeys tbl := by
  intro tbl
  induction tbl with
  | nil => intro k v; rfl
  | cons p rest ih =>
    intro k v
    obtain ⟨k0, v0⟩ := p
    by_cases h : k0 = k
    · simp only [updateKey, if_pos h, rowKeys_cons, ih k v]
    · simp only [updateKey, if_neg h, rowKeys_cons, ih k v]

theorem updateKey_length [DecidableEq K] (tbl : Rows K V) (k : K) (v : V) :
    (updateKey tbl k v).1.length = tbl.length := by
  rw [length_eq_rowKeys_length, updateKey_rowKeys, ← length_eq_rowKeys_length]

theorem updateKey_lookup_other [DecidableEq K] :
    ∀ (tbl : Rows K V) (k : K) (v : V) (key : K), key ≠ k →
      lookupKey (updateKey tbl k v).1 key = lookupKey tbl key := by
  intro tbl
  induction tbl with
  | nil => intro k v key h; rfl
  | cons p rest ih =>
    intro k v key h
    obtain ⟨k0, v0⟩ := p
    by_cases h0 : k0 = k
    · have hne : k0 ≠ key := fun he => h (he ▸ h0)
      simp only [updateKey, if_pos h0, lookupKey, if_neg hne, ih k v key h]
    · by_cases hk : k0 = key
      · simp only [updateKey, if_neg h0, lookupKey, if_pos hk]
      · simp only [updateKey, if_neg h0, lookupKey, if_neg hk, ih k v key h]

theorem updateKey_lookup_self [DecidableEq K] :
    ∀ (tbl : Rows K V) (k : K) (v : V), hasKey tbl k = true →
      lookupKey (updateKey tbl k v).1 k = some v := by
  intro tbl
  induction tbl with
  | nil => intro k v h; simp [hasKey, lookupKey] at h
  | cons p rest ih =>
    intro k v h
    obtain ⟨k0, v0⟩ := p
    by_cases h0 : k0 = k
    · simp only [updateKey, if_pos h0, lookupKey, if_pos h0]
    · have hr : hasKey rest k = true := by simpa [hasKey, lookupKey, h0] using h
      simp only [updateKey, if_neg h0, lookupKey, if_neg h0, ih k v hr]

theorem updateKey_of_not_hasKey [DecidableEq K] :
    ∀ (tbl : Rows K V) (k : K) (v : V), hasKey tbl k = false →
      updateKey tbl k v = (tbl, 0) := by
  intro tbl
  induction tbl with
  | nil => intro k v h; rfl
  | cons p rest ih =>
    intro k v h
    obtain ⟨k0, v0⟩ := p
    by_cases h0 : k0 = k
    · rw [hasKey, lookupKey, if_pos h0] at h
      simp at h
    · have hr : hasKey rest k = false := by
        rw [hasKey, lookupKey, if_neg h0] at h
        exact h
      simp only [updateKey, if_neg h0, ih k v hr]

theorem updateKey_count [DecidableEq K] :
    ∀ (tbl : Rows K V) (k : K) (v : V), (rowKeys tbl).Nodup →
      (updateKey tbl k v).2 = if hasKey tbl k = true then 1 else 0 := by
  intro tbl
  induction tbl with
  | nil => intro k v h; simp [updateKey, hasKey, lookupKey]
  | cons p rest ih =>
    intro k v hnd
    obtain ⟨k0, v0⟩ := p
    rw [rowKeys_cons, List.nodup_cons] at hnd
    obtain ⟨hnotin, hnd⟩ := hnd
    by_cases h0 : k0 = k
    · subst h0
      have hr : hasKey rest k0 = false := by
        cases hb : hasKey rest k0
        · rfl
        · exact absurd ((hasKey_iff_mem rest k0).mp hb) hnotin
      have := updateKey_of_not_hasKey rest k0 v hr
      simp [updateKey, this, hasKey, lookupKey]
    · have := ih k v hnd
      simp only [updateKey, if_neg h0, hasKey, lookupKey, if_neg h0]
      rw [← hasKey]
      exact this

/-! Lemmas about the upsert statement (Supersede). -/

theorem upsertStep_snd [DecidableEq K] (tbl : Rows K V) (k : K) (v : V) :
    (upsertStep tbl k v).2 = 1 := by
  by_cases h : hasKey tbl k = true <;> simp [upsertStep, h]

theorem upsertStep_lookup [DecidableEq K] (tbl : Rows K V) (k : K) (v : V) (key : K) :
    lookupKey (upsertStep tbl k v).1 key =
      if key = k then some v else lookupKey tbl key := by
  by_cases h : hasKey tbl k = true
  · by_cases hk : key = k
    · subst hk
      simp [upsertStep, if_pos h, updateKey_lookup_self tbl key v h]
    · simp only [upsertStep, if_pos h, updateKey_lookup_other tbl k v key hk, if_neg hk]
  · have hb : hasKey tbl k = false := by simpa using h
    simp only [upsertStep, if_neg h, lookupKey_append]
    by_cases hk : key = k
    · subst hk
      rw [lookupKey_eq_none_of_not_hasKey tbl key hb]
      simp [lookupKey]
    · cases hl : lookupKey tbl key with
      | some w => simp [hl, hk]
      | none =>
        have hne : k ≠ key := fun he => hk he.symm
        simp [hl, lookupKey, hne, hk]

theorem hasKey_congr [DecidableEq K] {a b : Rows K V} (h : rowKeys a = rowKeys b) (k : K) :
    hasKey a k = hasKey b k := by
  by_cases ha : hasKey a k = true
  · have hm := (hasKey_iff_mem a k).mp ha
    rw [h] at hm
    rw [ha, (hasKey_iff_mem b k).mpr hm]
  · have ha0 : hasKey a k = false := by simpa using ha
    have hb0 : hasKey b k = false := by
      cases hb : hasKey b k
      · rfl
      · have hm := (hasKey_iff_mem b k).mp hb
        rw [← h] at hm
        exact absurd ((hasKey_iff_mem a k).mpr hm) ha
    rw [ha0, hb0]

theorem applyAll_upsert_snd [DecidableEq K] :
    ∀ (ms : List (K × V)) (tbl : Rows K V),
      (applyAll upsertStep tbl ms).2 = ms.length := by
  intro ms
  induction ms with
  | nil => intro tbl; rfl
  | cons p rest ih =>
    intro tbl
    obtain ⟨k, v⟩ := p
    simp only [applyAll, upsertStep_snd, ih, List.length_cons]
    omega

theorem applyAll_upsert_lookup [DecidableEq K] :
    ∀ (ms : List (K × V)) (tbl : Rows K V) (key : K),
      lookupKey (applyAll upsertStep tbl ms).1 key =
        match lastWrite ms key with
        | some v => some v
        | none => lookupKey tbl key := by
  intro ms
  induction ms with
  | nil => intro tbl key; rfl
  | cons p rest ih =>
    intro tbl key
    obtain ⟨k, v⟩ := p
    simp only [applyAll, lastWrite]
    rw [ih]
    cases hl : lastWrite rest key with
    | some w => rfl
    | none =>
      simp only
      rw [upsertStep_lookup]
      by_cases hk : k = key
      · subst hk
        simp
      · have hk2 : key ≠ k := fun he => hk he.symm
        simp [hk, hk2]

theorem applyAll_upsert_rowKeys [DecidableEq K] :
    ∀ (ms : List (K × V)) (tbl : Rows K V),
      (∀ p ∈ ms, hasKey tbl p.1 = true) →
      rowKeys (applyAll upsertStep tbl ms).1 = rowKeys tbl := by
  intro ms
  induction ms with
  | nil => intro tbl h; rfl
  | cons p rest ih =>
    intro tbl h
    obtain ⟨k, v⟩ := p
    have hk : hasKey tbl k = true := h (k, v) (by simp)
    have hstep : rowKeys (upsertStep tbl k v).1 = rowKeys tbl := by
      simp only [upsertStep, if_pos hk, updateKey_rowKeys]
    simp only [applyAll]
    rw [ih (upsertStep tbl k v).1 ?_, hstep]
    intro q hq
    rw [hasKey_congr hstep q.1]
    exact h q (by simp [hq])

/-! Lemmas about the Refresh statement. -/

theorem applyAll_refresh_rowKeys [DecidableEq K] :
    ∀ (ms : List (K × V)) (tbl : Rows K V),
      rowKeys (applyAll refreshStep tbl ms).1 = rowKeys tbl := by
  intro ms
  induction ms with
  | nil => intro tbl; rfl
  | cons p rest ih =>
    intro tbl
    obtain ⟨k, v⟩ := p
    simp only [applyAll, refreshStep]
    rw [ih (updateKey tbl k v).1, updateKey_rowKeys]

theorem filterLenCongr {α : Type u_1} :
    ∀ (l : List α) (p q : α → Bool), (∀ x ∈ l, p x = q x) →
      l.filter p = l.filter q := by
  intro l
  induction l with
  | nil => intro p q h; rfl
  | cons x rest ih =>
    intro p q h
    have hx := h x (by simp)
    simp only [List.filter_cons, hx, ih p q (fun y hy => h y (by simp [hy]))]

theorem applyAll_refresh_snd [DecidableEq K] :
    ∀ (ms : List (K × V)) (tbl : Rows K V), (rowKeys tbl).Nodup →
      (applyAll refreshStep tbl ms).2 =
        (ms.filter fun p => hasKey tbl p.1).length := by
  intro ms
  induction ms with
  | nil => intro tbl h; rfl
  | cons p rest ih =>
    intro tbl hnd
    obtain ⟨k, v⟩ := p
    have hkeys : rowKeys (updateKey tbl k v).1 = rowKeys tbl := updateKey_rowKeys tbl k v
    have hnd2 : (rowKeys (updateKey tbl k v).1).Nodup := by rw [hkeys]; exact hnd
    have hcongr : rest.filter (fun p => hasKey (updateKey tbl k v).1 p.1) =
        rest.filter (fun p => hasKey tbl p.1) :=
      filterLenCongr rest _ _ (fun q _ => by rw [hasKey_congr hkeys q.1])
    simp only [applyAll, refreshStep]
    rw [ih (updateKey tbl k v).1 hnd2, hcongr, updateKey_count tbl k v hnd]
    by_cases hk : hasKey tbl k = true
    · simp [List.filter_cons, hk, Nat.add_comm]
    · have hk0 : hasKey tbl k = false := by simpa using hk
      simp [List.filter_cons, hk0]

theorem applyAll_refresh_lookup_present [DecidableEq K] :
    ∀ (ms : List (K × V)) (tbl : Rows K V) (key : K), hasKey tbl key = true →
      lookupKey (applyAll refreshStep tbl ms).1 key =
        match lastWrite ms key with
        | some v => some v
        | none => lookupKey tbl key := by
  intro ms
  induction ms with
  | nil => intro tbl key h; rfl
  | cons p rest ih =>
    intro tbl key h
    obtain ⟨k, v⟩ := p
    have hkeys : rowKeys (updateKey tbl k v).1 = rowKeys tbl := updateKey_rowKeys tbl k v
    have h2 : hasKey (updateKey tbl k v).1 key = true := by
      rw [hasKey_congr hkeys key]; exact h
    simp only [applyAll, refreshStep, lastWrite]
    rw [ih (updateKey tbl k v).1 key h2]
    cases hl : lastWrite rest key with
    | some w => rfl
    | none =>
      simp only
      by_cases hk : k = key
      · subst hk
        rw [updateKey_lookup_self tbl k v h]
        simp
      · have hk2 : key ≠ k := fun he => hk he.symm
        rw [updateKey_lookup_other tbl k v key hk2]
        simp [hk]

theorem applyAll_refresh_lookup_absent [DecidableEq K]
    (ms : List (K × V)) (tbl : Rows K V) (key : K) (h : hasKey tbl key = false) :
    lookupKey (applyAll refreshStep tbl ms).1 key = none := by
  have hkeys : rowKeys (applyAll refreshStep tbl ms).1 = rowKeys tbl :=
    applyAll_refresh_rowKeys ms tbl
  have : hasKey (applyAll refreshStep tbl ms).1 key = false := by
    rw [hasKey_congr hkeys key]; exact h
  exact lookupKey_eq_none_of_not_hasKey _ key this

/-! Further small helper lemmas used by the claim theorems. -/

theorem hasKey_eq_false_of_not_mem [DecidableEq K] (rows : Rows K V) (k : K)
    (h : k ∉ rowKeys rows) : hasKey rows k = false := by
  cases hb : hasKey rows k
  · rfl
  · exact absurd ((hasKey_iff_mem rows k).mp hb) h

theorem ensureTable_db_preserves (b : Store T K V) (name n : String)
    (h : (dbFind b.db n).isSome = true) :
    dbFind (ensureTable b name).db n = dbFind b.db n := by
  by_cases he : n = name
  · subst he
    obtain ⟨rows, hrows⟩ := Option.isSome_iff_exists.mp h
    by_cases hm : n ∈ b.names
    · simp [ensureTable, hm]
    · simp [ensureTable, hm, initialise, createIfNotExists, hrows]
  · exact ensureTable_find_other b name n he

theorem collectRows_congr :
    ∀ (sources : List String) (d1 d2 : DB K V),
      (∀ s ∈ sources, dbFind d1 s = dbFind d2 s) →
      collectRows d1 sources = collectRows d2 sources := by
  intro sources
  induction sources with
  | nil => intro d1 d2 h; rfl
  | cons s rest ih =>
    intro d1 d2 h
    rw [collectRows, collectRows, h s (by simp), ih d1 d2 (fun x hx => h x (by simp [hx]))]

theorem srcRows_congr :
    ∀ (sources : List String) (d1 d2 : DB K V),
      (∀ s ∈ sources, dbFind d1 s = dbFind d2 s) →
      srcRows d1 sources = srcRows d2 sources := by
  intro sources
  induction sources with
  | nil => intro d1 d2 h; rfl
  | cons s rest ih =>
    intro d1 d2 h
    rw [srcRows, srcRows, tableOr, tableOr, h s (by simp),
      ih d1 d2 (fun x hx => h x (by simp [hx]))]

theorem verifyNames_eq_true (name : String) (names : List String)
    (h1 : validName name = true) (h2 : ∀ s ∈ names, validName s = true) :
    verifyNames name names = true := by
  rw [verifyNames, h1, Bool.true_and, List.all_eq_true]
  exact h2

theorem cacheConsistent_of_all (b : Store T K V)
    (h : (b.names.all fun n => (dbFind b.db n).isSome) = true) : cacheConsistent b :=
  fun n hn => List.all_eq_true.mp h n hn

theorem retContract_fail (e : Err) : retContract (-1, some e) := by
  refine ⟨⟨fun _ => by simp, fun _ => rfl⟩, fun h => by simp at h⟩

theorem retContract_okNat (n : Nat) : retContract ((n : Int), none) := by
  refine ⟨⟨fun h => absurd h (by omega), fun h => absurd rfl h⟩, fun _ => by omega⟩

theorem execLoop_contract [DecidableEq K] (step : Rows K V → K → V → Rows K V × Nat)
    (mapper : T → Option (K × V)) :
    ∀ (values : List T) (tbl : Rows K V) (acc : Int), 0 ≤ acc →
      retContract (execLoop step mapper values tbl acc).1 := by
  intro values
  induction values with
  | nil =>
    intro tbl acc hacc
    dsimp only [execLoop, retContract]
    exact ⟨⟨fun h => absurd h (by omega), fun h => absurd rfl h⟩, fun _ => hacc⟩
  | cons t rest ih =>
    intro tbl acc hacc
    cases hm : mapper t with
    | none => simp only [execLoop, hm]; exact retContract_fail _
    | some kv =>
      obtain ⟨k, v⟩ := kv
      simp only [execLoop, hm]
      exact ih (step tbl k v).1 (acc + (step tbl k v).2) (by positivity)

theorem add_contract [DecidableEq K] (step : Rows K V → K → V → Rows K V × Nat)
    (b : Store T K V) (name : String) (values : List T) :
    retContract (add step b name values).1 := by
  by_cases hv : verifyNames name [] = true
  · rw [add, if_pos hv]
    cases hf : dbFind (ensureTable b name).db name with
    | none => simp only [hf]; exact retContract_fail _
    | some tbl =>
      simp only [hf]
      exact execLoop_contract step (ensureTable b name).mapper values tbl 0 (by omega)
  · rw [add, if_neg hv]
    exact retContract_fail _

theorem subtractLoop_contract [DecidableEq K] (target : String) :
    ∀ (sources : List String) (db : DB K V) (acc : Int), 0 ≤ acc →
      retContract (subtractLoop target db sources acc).1 := by
  intro sources
  induction sources with
  | nil =>
    intro db acc hacc
    dsimp only [subtractLoop, retContract]
    exact ⟨⟨fun h => absurd h (by omega), fun h => absurd rfl h⟩, fun _ => hacc⟩
  | cons s rest ih =>
    intro db acc hacc
    cases hf : dbFind db target with
    | none => simp only [subtractLoop, hf]; exact retContract_fail _
    | some tbl =>
      cases hs : dbFind db s with
      | none => simp only [subtractLoop, hf, hs]; exact retContract_fail _
      | some srows =>
        simp only [subtractLoop, hf, hs]
        exact ih _ _ (by positivity)

/-! Claim theorems. -/

/-- C3 (counterexample): on a fresh store the set `"foo"` was never created
by any mutating call, and its name is valid, yet `Cardinality` returns the
sentinel `-1` with a `no such table` backing-store error — not `(0, nil)` as
the claim states: `Cardinality` never creates the table, and SQLite's
`SELECT COUNT(*)` on a missing table fails. -/
theorem claim_C3_cex :
    Cardinality (idStore [] []) "foo" = (-1, some Err.noSuchTable) ∧
    Cardinality (idStore [] []) "foo" ≠ ((0 : Int), none) ∧
    validName "foo" = true := by
  refine ⟨by decide, by decide, by decide⟩

/-- C3 (amended): for every set name never created by a mutating call (no
backing table exists), `Cardinality` returns `-1` with a `no such table`
backing-store error, and for an invalid name it fails with a validation
error. -/
theorem claim_C3 (b b2 : Store T K V) (name bad : String)
    (hv : validName name = true) (hmiss : dbFind b.db name = none)
    (hbad : validName bad = false) :
    Cardinality b name = (-1, some Err.noSuchTable) ∧
    Cardinality b2 bad = (-1, some Err.validation) := by
  constructor
  · simp [Cardinality, verifyNames, hv, hmiss]
  · simp [Cardinality, verifyNames, hbad]

/-- C3 witness: the amended claim at a fresh store and at the test suite's
invalid name. -/
theorem claim_C3_witness :
    Cardinality (idStore [] []) "foo" = (-1, some Err.noSuchTable) ∧
    Cardinality (idStore [] []) "fo\"o" = (-1, some Err.validation) :=
  claim_C3 (idStore [] []) (idStore [] []) "foo" "fo\"o" (by decide) (by decide) (by decide)

/-- C4 (confirmed): when the target of `Subtract` genuinely does not exist
in the backing store (and the advisory cache is sound, as it is in every
reachable state), the call creates the target empty, returns `(0, nil)`,
removes nothing from any other table, and holds for arbitrary source name
lists — no source is scanned, so even a nonexistent source raises no
error. -/
theorem claim_C4 [DecidableEq K] (b : Store T K V) (target : String) (sources : List String)
    (hv : validName target = true) (hvs : ∀ s ∈ sources, validName s = true)
    (hc : cacheConsistent b) (hmiss : dbFind b.db target = none) :
    Subtract b target sources = ((0, none), initialise b target) ∧
    dbFind (Subtract b target sources).2.db target = some [] ∧
    (∀ n, n ≠ target → dbFind (Subtract b target sources).2.db n = dbFind b.db n) := by
  have hmem : target ∉ b.names := by
    intro hm
    have := hc target hm
    rw [hmiss] at this
    simp at this
  have hver : verifyNames target sources = true := verifyNames_eq_true target sources hv hvs
  have hmain : Subtract b target sources = ((0, none), initialise b target) := by
    rw [Subtract.eq_def, if_pos hver, if_neg hmem]
  refine ⟨hmain, ?_, ?_⟩
  · rw [hmain]
    simp [initialise, createIfNotExists_find_self, tableOr, hmiss]
  · intro n hn
    rw [hmain]
    simp [initialise, createIfNotExists_find_other b.db target n hn]

/-- C4 witness: a store holding only the set `"s"`; subtracting the
never-created target `"t"` with a nonexistent source `"nope"` returns 0,
creates `"t"` empty and leaves `"s"` untouched. -/
theorem claim_C4_witness :
    Subtract (idStore [("s", [(1, 1)])] ["s"]) "t" ["nope"] =
      ((0, none), initialise (idStore [("s", [(1, 1)])] ["s"]) "t") ∧
    dbFind (Subtract (idStore [("s", [(1, 1)])] ["s"]) "t" ["nope"]).2.db "t" = some [] ∧
    dbFind (Subtract (idStore [("s", [(1, 1)])] ["s"]) "t" ["nope"]).2.db "s" =
      some [(1, 1)] := by
  have h := claim_C4 (idStore [("s", [(1, 1)])] ["s"]) "t" ["nope"]
    (by decide) (by decide) (cacheConsistent_of_all _ (by decide)) (by decide)
  exact ⟨h.1, h.2.1, (h.2.2 "s" (by decide)).trans (by decide)⟩

/-- C8 (confirmed): every count-returning operation handed any name (target
or source position) containing the double quote rejects it up front: the
result is the sentinel `-1` with a validation error and the store is
returned unchanged — no backing-store access, no mutation.
`RetrieveIfExists` likewise fails with the validation error and no value. -/
theorem claim_C8 [DecidableEq K] [DecidableEq V] (b bu : Store T K V)
    (name target : String) (sources : List String) (values : List T) (probe : T)
    (h1 : name.data.contains dquote = true)
    (h2 : target.data.contains dquote = true ∨ ∃ s ∈ sources, s.data.contains dquote = true) :
    Add b name values = ((-1, some Err.validation), b) ∧
    Supersede b name values = ((-1, some Err.validation), b) ∧
    Refresh b name values = ((-1, some Err.validation), b) ∧
    Discard b name values = ((-1, some Err.validation), b) ∧
    Cardinality b name = (-1, some Err.validation) ∧
    RetrieveIfExists b name probe = (none, some Err.validation) ∧
    Union bu target sources = ((-1, some Err.validation), bu) ∧
    Intersection bu target sources = ((-1, some Err.validation), bu) ∧
    Subtract bu target sources = ((-1, some Err.validation), bu) := by
  have hvalid : ∀ (x : String), x.data.contains dquote = true → validName x = false := by
    intro x hx
    rw [validName, hx]
    rfl
  have hn : verifyNames name [] = false := by
    simp [verifyNames, hvalid name h1]
  have ht : verifyNames target sources = false := by
    rcases h2 with h2 | ⟨s, hs, hsc⟩
    · simp [verifyNames, hvalid target h2]
    · have hall : sources.all validName = false := by
        rw [List.all_eq_false]
        exact ⟨s, hs, by simp [hvalid s hsc]⟩
      simp [verifyNames, hall]
  refine ⟨?_, ?_, ?_, ?_, ?_, ?_, ?_, ?_, ?_⟩
  · rw [Add, add, if_neg (by simp [hn])]
  · rw [Supersede, add, if_neg (by simp [hn])]
  · rw [Refresh, add, if_neg (by simp [hn])]
  · rw [Discard, add, if_neg (by simp [hn])]
  · rw [Cardinality, if_neg (by simp [hn])]
  · rw [RetrieveIfExists, if_neg (by simp [hn])]
  · rw [Union, UnionWith, if_neg (by simp [ht])]
  · rw [Intersection, if_neg (by simp [ht])]
  · rw [Subtract.eq_def, if_neg (by simp [ht])]

/-- C8 witness: the test suite's invalid name `fo"o` as a direct name and in
source position. -/
theorem claim_C8_witness :
    Add (idStore [] []) "fo\"o" [1] = ((-1, some Err.validation), idStore [] []) ∧
    Supersede (idStore [] []) "fo\"o" [1] = ((-1, some Err.validation), idStore [] []) ∧
    Refresh (idStore [] []) "fo\"o" [1] = ((-1, some Err.validation), idStore [] []) ∧
    Discard (idStore [] []) "fo\"o" [1] = ((-1, some Err.validation), idStore [] []) ∧
    Cardinality (idStore [] []) "fo\"o" = (-1, some Err.validation) ∧
    RetrieveIfExists (idStore [] []) "fo\"o" 0 = (none, some Err.validation) ∧
    Union (idStore [] []) "ok" ["fo\"o"] = ((-1, some Err.validation), idStore [] []) ∧
    Intersection (idStore [] []) "ok" ["fo\"o"] = ((-1, some Err.validation), idStore [] []) ∧
    Subtract (idStore [] []) "ok" ["fo\"o"] = ((-1, some Err.validation), idStore [] []) :=
  claim_C8 (idStore [] []) (idStore [] []) "fo\"o" "ok" ["fo\"o"] [1] 0
    (by decide) (Or.inr ⟨"fo\"o", by decide, by decide⟩)

/-- C1 (counterexample): on a fresh store whose mapper cannot encode the
element 13, the single call `Add "foo" [1, 13]` fails with an encoding error
mid-batch, yet the element 1 — processed before the failure — remains
inserted: the target set's contents after the failed call differ from its
contents before (the set did not even exist).  The per-element statements
autocommit; there is no enclosing transaction. -/
theorem claim_C1_cex :
    (Add (failStore [] []) "foo" [1, 13]).1 = (-1, some Err.encoding) ∧
    dbFind (Add (failStore [] []) "foo" [1, 13]).2.db "foo" = some [(1, 1)] ∧
    dbFind (failStore [] []).db "foo" = none := by
  refine ⟨by decide, by decide, by decide⟩

/-- C1 (amended): `Add`, `Supersede`, `Refresh` and `Discard` process their
element sequence one autocommitted statement at a time.  If key/payload
derivation fails for some element, the call returns `-1` with the encoding
error and the store is left exactly as if the call had been made with only
the elements preceding the failure: their effects remain applied, and no
element from the failure point on is applied. -/
theorem claim_C1 [DecidableEq K] (b : Store T K V) (name : String)
    (good : List T) (bad : T) (rest : List T)
    (hv : validName name = true) (hc : cacheConsistent b)
    (hg : ∀ v ∈ good, (b.mapper v).isSome = true) (hb : b.mapper bad = none) :
    Add b name (good ++ bad :: rest) = ((-1, some Err.encoding), (Add b name good).2) ∧
    Supersede b name (good ++ bad :: rest) =
      ((-1, some Err.encoding), (Supersede b name good).2) ∧
    Refresh b name (good ++ bad :: rest) =
      ((-1, some Err.encoding), (Refresh b name good).2) ∧
    Discard b name (good ++ bad :: rest) =
      ((-1, some Err.encoding), (Discard b name good).2) := by
  refine ⟨?_, ?_, ?_, ?_⟩
  · rw [Add, Add, add_eq_fail insertIgnoreStep b name good bad rest hv hc hg hb,
      add_eq_ok insertIgnoreStep b name good hv hc hg]
  · rw [Supersede, Supersede, add_eq_fail upsertStep b name good bad rest hv hc hg hb,
      add_eq_ok upsertStep b name good hv hc hg]
  · rw [Refresh, Refresh, add_eq_fail refreshStep b name good bad rest hv hc hg hb,
      add_eq_ok refreshStep b name good hv hc hg]
  · rw [Discard, Discard, add_eq_fail discardStep b name good bad rest hv hc hg hb,
      add_eq_ok discardStep b name good hv hc hg]

/-- C1 witness: the amended claim at the concrete failing batch `[1, 13]`. -/
theorem claim_C1_witness :
    Add (failStore [] []) "foo" ([1] ++ 13 :: []) =
      ((-1, some Err.encoding), (Add (failStore [] []) "foo" [1]).2) ∧
    Supersede (failStore [] []) "foo" ([1] ++ 13 :: []) =
      ((-1, some Err.encoding), (Supersede (failStore [] []) "foo" [1]).2) ∧
    Refresh (failStore [] []) "foo" ([1] ++ 13 :: []) =
      ((-1, some Err.encoding), (Refresh (failStore [] []) "foo" [1]).2) ∧
    Discard (failStore [] []) "foo" ([1] ++ 13 :: []) =
      ((-1, some Err.encoding), (Discard (failStore [] []) "foo" [1]).2) :=
  claim_C1 (failStore [] []) "foo" [1] 13 [] (by decide)
    (cacheConsistent_of_all _ (by decide)) (by decide) (by decide)

/-- C10 (confirmed): every count-returning operation returns the sentinel
`-1` exactly when its error is non-nil — validation, encoding and
backing-store (`no such table`) failures alike — and a non-negative count
whenever the error is nil. -/
theorem claim_C10 [DecidableEq K] [DecidableEq V] (b : Store T K V)
    (name target : String) (sources : List String) (values : List T) :
    retContract (Add b name values).1 ∧
    retContract (Supersede b name values).1 ∧
    retContract (Refresh b name values).1 ∧
    retContract (Discard b name values).1 ∧
    retContract (Cardinality b name) ∧
    retContract (Union b target sources).1 ∧
    retContract (Intersection b target sources).1 ∧
    retContract (Subtract b target sources).1 := by
  refine ⟨add_contract _ b name values, add_contract _ b name values,
    add_contract _ b name values, add_contract _ b name values, ?_, ?_, ?_, ?_⟩
  · by_cases hv : verifyNames name [] = true
    · rw [Cardinality, if_pos hv]
      cases hf : dbFind b.db name with
      | none => exact retContract_fail _
      | some tbl => exact retContract_okNat tbl.length
    · rw [Cardinality, if_neg hv]
      exact retContract_fail _
  · by_cases hv : verifyNames target sources = true
    · rw [Union, UnionWith, if_pos hv]
      cases sources with
      | nil => exact retContract_okNat 0
      | cons s rest =>
        cases hf : dbFind (ensureTable b target).db target with
        | none => simp only [hf]; exact retContract_fail _
        | some tbl =>
          cases hr : collectRows (ensureTable b target).db (s :: rest) with
          | none => simp only [hf, hr]; exact retContract_fail _
          | some rows => simp only [hf, hr]; exact retContract_okNat _
    · rw [Union, UnionWith, if_neg hv]
      exact retContract_fail _
  · by_cases hv : verifyNames target sources = true
    · rw [Intersection, if_pos hv]
      cases sources with
      | nil => exact retContract_okNat 0
      | cons s rest =>
        cases hf : dbFind (ensureTable b target).db target with
        | none => simp only [hf]; exact retContract_fail _
        | some tbl =>
          cases h0 : dbFind (ensureTable b target).db s with
          | none => simp only [hf, h0]; exact retContract_fail _
          | some rows0 =>
            cases hr : collectTables (ensureTable b target).db rest with
            | none => simp only [hf, h0, hr]; exact retContract_fail _
            | some rowsRest => simp only [hf, h0, hr]; exact retContract_okNat _
    · rw [Intersection, if_neg hv]
      exact retContract_fail _
  · by_cases hv : verifyNames target sources = true
    · rw [Subtract.eq_def, if_pos hv]
      by_cases hm : target ∈ b.names
      · rw [if_pos hm]
        cases sources with
        | nil => exact retContract_okNat 0
        | cons s rest => exact subtractLoop_contract target (s :: rest) b.db 0 (by omega)
      · rw [if_neg hm]
        exact retContract_okNat 0
    · rw [Subtract.eq_def, if_neg hv]
      exact retContract_fail _

/-- C5 (confirmed): `Add` inserts exactly the elements whose key is not
already present (first occurrences of new keys), skips key matches without
counting them, and returns the number of newly inserted elements; an input
with duplicate keys yields a count strictly below the sequence length, and
starting from a never-created or empty set the final `Cardinality` equals
the number of distinct keys of the input. -/
theorem claim_C5 [DecidableEq K] (b : Store T K V) (name : String) (values : List T)
    (hv : validName name = true) (hc : cacheConsistent b)
    (hm : ∀ v ∈ values, (b.mapper v).isSome = true) :
    (Add b name values).1 =
      (((newRowsAfter (rowKeys (tableOr b.db name))
          (values.filterMap b.mapper)).length : Int), none) ∧
    dbFind (Add b name values).2.db name =
      some (tableOr b.db name ++
        newRowsAfter (rowKeys (tableOr b.db name)) (values.filterMap b.mapper)) ∧
    (¬ ((values.filterMap b.mapper).map Prod.fst).Nodup →
      (Add b name values).1.1 < (values.length : Int)) ∧
    Cardinality (Add b name values).2 name =
      ((((tableOr b.db name).length +
          (newRowsAfter (rowKeys (tableOr b.db name))
            (values.filterMap b.mapper)).length : Nat) : Int), none) ∧
    (tableOr b.db name = [] →
      Cardinality (Add b name values).2 name =
        (((keysNew [] ((values.filterMap b.mapper).map Prod.fst)).length : Int), none)) := by
  have hA := add_eq_ok insertIgnoreStep b name values hv hc hm
  have happly : applyAll insertIgnoreStep (tableOr b.db name) (values.filterMap b.mapper) =
      (tableOr b.db name ++
        newRowsAfter (rowKeys (tableOr b.db name)) (values.filterMap b.mapper),
        (newRowsAfter (rowKeys (tableOr b.db name)) (values.filterMap b.mapper)).length) := by
    rw [applyAll_insertIgnore_eq,
      insertIgnoreAll_spec (values.filterMap b.mapper) (tableOr b.db name)
        (rowKeys (tableOr b.db name)) (fun k => Iff.rfl)]
  have h1 : (Add b name values).1 =
      (((newRowsAfter (rowKeys (tableOr b.db name))
          (values.filterMap b.mapper)).length : Int), none) := by
    rw [Add, hA, happly]
  have hfind : dbFind (Add b name values).2.db name =
      some (tableOr b.db name ++
        newRowsAfter (rowKeys (tableOr b.db name)) (values.filterMap b.mapper)) := by
    rw [Add, hA, happly]
    exact dbSet_find_self (ensureTable b name).db name _
      (by rw [ensureTable_find_self b name hc]; rfl)
  refine ⟨h1, hfind, ?_, ?_, ?_⟩
  · intro hdup
    rw [h1]
    have hlt := keysNew_length_lt_of_dup ((values.filterMap b.mapper).map Prod.fst)
      (rowKeys (tableOr b.db name)) hdup
    have hkeys : (newRowsAfter (rowKeys (tableOr b.db name))
        (values.filterMap b.mapper)).length =
        (keysNew (rowKeys (tableOr b.db name))
          ((values.filterMap b.mapper).map Prod.fst)).length := by
      rw [length_eq_rowKeys_length, rowKeys_newRowsAfter]
      rfl
    have hlen := length_filterMap_of_isSome b.mapper values hm
    have hmap : ((values.filterMap b.mapper).map Prod.fst).length =
        (values.filterMap b.mapper).length := List.length_map _ _
    simp only [hkeys]
    rw [← hlen, ← hmap]
    exact_mod_cast hlt
  · rw [Cardinality, if_pos (verifyNames_eq_true name [] hv (by simp)), hfind]
    simp
  · intro hempty
    rw [Cardinality, if_pos (verifyNames_eq_true name [] hv (by simp)), hfind, hempty]
    have : rowKeys ([] : Rows K V) = [] := rfl
    rw [this]
    simp only [List.nil_append]
    rw [length_eq_rowKeys_length, rowKeys_newRowsAfter]
    rfl

/-- C5 witness: the `TestKeyFunction` scenario — keys are the element mod 10;
adding `[1, 2, 3, 11]` to a fresh set inserts 3 elements (11 collides with
1), a count strictly below 4, and the final cardinality is 3. -/
theorem claim_C5_witness :
    (Add (modStore [] []) "foo" [1, 2, 3, 11]).1 = (3, none) ∧
    (Add (modStore [] []) "foo" [1, 2, 3, 11]).1.1 < (4 : Int) ∧
    Cardinality (Add (modStore [] []) "foo" [1, 2, 3, 11]).2 "foo" = (3, none) := by
  have h := claim_C5 (modStore [] []) "foo" [1, 2, 3, 11] (by decide)
    (cacheConsistent_of_all _ (by decide)) (by decide)
  refine ⟨h.1.trans (by decide), ?_, (h.2.2.2.2 (by decide)).trans (by decide)⟩
  exact h.2.2.1 (by decide)

/-- C6 (confirmed): `Supersede` counts every write attempt — the returned
count equals the full length of the element sequence, insertions and
overwrites alike, including overwrites whose new payload equals the old —
and when every element's key already exists, the stored payloads are
overwritten (last write per key wins) while `Cardinality` is unchanged. -/
theorem claim_C6 [DecidableEq K] (b : Store T K V) (name : String) (values : List T)
    (hv : validName name = true) (hc : cacheConsistent b)
    (hm : ∀ v ∈ values, (b.mapper v).isSome = true) :
    (Supersede b name values).1 = ((values.length : Int), none) ∧
    ((∀ p ∈ values.filterMap b.mapper, hasKey (tableOr b.db name) p.1 = true) →
      Cardinality (Supersede b name values).2 name =
        (((tableOr b.db name).length : Int), none) ∧
      ∀ k v0, lastWrite (values.filterMap b.mapper) k = some v0 →
        lookupKey (tableOr (Supersede b name values).2.db name) k = some v0) := by
  have hA := add_eq_ok upsertStep b name values hv hc hm
  have hfind : dbFind (Supersede b name values).2.db name =
      some (applyAll upsertStep (tableOr b.db name) (values.filterMap b.mapper)).1 := by
    rw [Supersede, hA]
    exact dbSet_find_self (ensureTable b name).db name _
      (by rw [ensureTable_find_self b name hc]; rfl)
  constructor
  · rw [Supersede, hA, applyAll_upsert_snd, length_filterMap_of_isSome b.mapper values hm]
  · intro hpresent
    have hkeys : rowKeys (applyAll upsertStep (tableOr b.db name)
        (values.filterMap b.mapper)).1 = rowKeys (tableOr b.db name) :=
      applyAll_upsert_rowKeys (values.filterMap b.mapper) (tableOr b.db name) hpresent
    constructor
    · rw [Cardinality, if_pos (verifyNames_eq_true name [] hv (by simp)), hfind]
      dsimp only
      rw [length_eq_rowKeys_length, hkeys, ← length_eq_rowKeys_length]
    · intro k v0 hlast
      rw [tableOr, hfind]
      simp only [Option.getD_some]
      rw [applyAll_upsert_lookup, hlast]

/-- C6 witness: keys are the element mod 10; superseding `[1, 11, 2]` into a
set holding keys 1 and 2 counts all three write attempts, leaves the
cardinality at 2, and stores 11 — the last write for key 1. -/
theorem claim_C6_witness :
    (Supersede (modStore [("foo", [(1, 10), (2, 20)])] ["foo"]) "foo" [1, 11, 2]).1 =
      (3, none) ∧
    Cardinality (Supersede (modStore [("foo", [(1, 10), (2, 20)])] ["foo"])
      "foo" [1, 11, 2]).2 "foo" = (2, none) ∧
    lookupKey (tableOr (Supersede (modStore [("foo", [(1, 10), (2, 20)])] ["foo"])
      "foo" [1, 11, 2]).2.db "foo") 1 = some 11 := by
  have h := claim_C6 (modStore [("foo", [(1, 10), (2, 20)])] ["foo"]) "foo" [1, 11, 2]
    (by decide) (cacheConsistent_of_all _ (by decide)) (by decide)
  have h2 := h.2 (by decide)
  exact ⟨h.1.trans (by decide), h2.1.trans (by decide), h2.2 1 11 (by decide)⟩

/-- C7 (confirmed): `Refresh` never inserts: an element whose key is absent
is skipped and not counted, `Cardinality` is unchanged by the whole call,
and a subsequent `RetrieveIfExists` for an absent key still reports absent
with no error; an element whose key is present has its payload overwritten
(last write per key wins) and is counted, the returned count being the
number of elements that performed an update. -/
theorem claim_C7 [DecidableEq K] (b : Store T K V) (name : String) (values : List T)
    (hv : validName name = true) (hc : cacheConsistent b)
    (hm : ∀ v ∈ values, (b.mapper v).isSome = true)
    (hnd : (rowKeys (tableOr b.db name)).Nodup) :
    (Refresh b name values).1 =
      ((((values.filterMap b.mapper).filter
          fun p => hasKey (tableOr b.db name) p.1).length : Int), none) ∧
    Cardinality (Refresh b name values).2 name =
      (((tableOr b.db name).length : Int), none) ∧
    (∀ (probe : T) (k : K) (v0 : V), b.mapper probe = some (k, v0) →
      hasKey (tableOr b.db name) k = false →
      RetrieveIfExists (Refresh b name values).2 name probe = (none, none)) ∧
    (∀ k v0, hasKey (tableOr b.db name) k = true →
      lastWrite (values.filterMap b.mapper) k = some v0 →
      lookupKey (tableOr (Refresh b name values).2.db name) k = some v0) := by
  have hA := add_eq_ok refreshStep b name values hv hc hm
  have hfind : dbFind (Refresh b name values).2.db name =
      some (applyAll refreshStep (tableOr b.db name) (values.filterMap b.mapper)).1 := by
    rw [Refresh, hA]
    exact dbSet_find_self (ensureTable b name).db name _
      (by rw [ensureTable_find_self b name hc]; rfl)
  have hkeys : rowKeys (applyAll refreshStep (tableOr b.db name)
      (values.filterMap b.mapper)).1 = rowKeys (tableOr b.db name) :=
    applyAll_refresh_rowKeys (values.filterMap b.mapper) (tableOr b.db name)
  have hmapper : (Refresh b name values).2.mapper = b.mapper := by
    rw [Refresh, hA]
    exact ensureTable_mapper b name
  refine ⟨?_, ?_, ?_, ?_⟩
  · rw [Refresh, hA,
      applyAll_refresh_snd (values.filterMap b.mapper) (tableOr b.db name) hnd]
  · rw [Cardinality, if_pos (verifyNames_eq_true name [] hv (by simp)), hfind]
    dsimp only
    rw [length_eq_rowKeys_length, hkeys, ← length_eq_rowKeys_length]
  · intro probe k v0 hmap habsent
    rw [RetrieveIfExists, if_pos (verifyNames_eq_true name [] hv (by simp)),
      hmapper, hmap, hfind]
    dsimp only
    rw [applyAll_refresh_lookup_absent (values.filterMap b.mapper)
      (tableOr b.db name) k habsent]
  · intro k v0 hpresent hlast
    rw [tableOr, hfind]
    simp only [Option.getD_some]
    rw [applyAll_refresh_lookup_present (values.filterMap b.mapper)
      (tableOr b.db name) k hpresent, hlast]

/-- C7 witness: keys are the element mod 10; refreshing `[5, 7]` into a set
holding keys 5 and 4 counts only the key-5 update, leaves the cardinality at
2, lets a retrieval of the absent key 7 report absent with no error, and
stores the new payload for key 5. -/
theorem claim_C7_witness :
    (Refresh (modStore [("foo", [(5, 50), (4, 40)])] ["foo"]) "foo" [5, 7]).1 =
      (1, none) ∧
    Cardinality (Refresh (modStore [("foo", [(5, 50), (4, 40)])] ["foo"])
      "foo" [5, 7]).2 "foo" = (2, none) ∧
    RetrieveIfExists (Refresh (modStore [("foo", [(5, 50), (4, 40)])] ["foo"])
      "foo" [5, 7]).2 "foo" 7 = (none, none) ∧
    lookupKey (tableOr (Refresh (modStore [("foo", [(5, 50), (4, 40)])] ["foo"])
      "foo" [5, 7]).2.db "foo") 5 = some 5 := by
  have h := claim_C7 (modStore [("foo", [(5, 50), (4, 40)])] ["foo"]) "foo" [5, 7]
    (by decide) (cacheConsistent_of_all _ (by decide)) (by decide) (by decide)
  exact ⟨h.1.trans (by decide), h.2.1.trans (by decide),
    h.2.2.1 7 7 7 (by decide) (by decide), h.2.2.2 5 5 (by decide) (by decide)⟩

/-! Helper lemmas for the order-faithful Union analysis. -/

theorem lookupKey_mem [DecidableEq K] :
    ∀ (l : Rows K V) (k : K) (v : V), lookupKey l k = some v → (k, v) ∈ l := by
  intro l
  induction l with
  | nil => intro k v h; simp [lookupKey] at h
  | cons p rest ih =>
    intro k v h
    obtain ⟨k0, v0⟩ := p
    by_cases h0 : k0 = k
    · subst h0
      rw [lookupKey, if_pos rfl] at h
      have hv0 : v0 = v := by injection h
      subst hv0
      exact List.mem_cons_self _ _
    · rw [lookupKey, if_neg h0] at h
      exact List.mem_cons_of_mem _ (ih k v h)

theorem dedupKeep_subset [DecidableEq α] :
    ∀ (l seen : List α) (x : α), x ∈ dedupKeep seen l → x ∈ l := by
  intro l
  induction l with
  | nil => intro seen x h; simp [dedupKeep] at h
  | cons y rest ih =>
    intro seen x h
    by_cases hy : y ∈ seen
    · rw [dedupKeep, if_pos hy] at h
      exact List.mem_cons_of_mem _ (ih seen x h)
    · rw [dedupKeep, if_neg hy] at h
      rcases List.mem_cons.mp h with he | hm
      · rw [he]; exact List.mem_cons_self _ _
      · exact List.mem_cons_of_mem _ (ih (y :: seen) x hm)

theorem keysNew_mem_not_in [DecidableEq K] :
    ∀ (l ks : List K) (x : K), x ∈ keysNew ks l → x ∉ ks := by
  intro l
  induction l with
  | nil => intro ks x h; simp [keysNew] at h
  | cons k rest ih =>
    intro ks x h
    by_cases hk : k ∈ ks
    · rw [keysNew, if_pos hk] at h
      exact ih ks x h
    · rw [keysNew, if_neg hk] at h
      rcases List.mem_cons.mp h with he | hm
      · rw [he]; exact hk
      · intro hx
        exact ih (k :: ks) x hm (List.mem_cons_of_mem _ hx)

theorem keysNew_nodup [DecidableEq K] :
    ∀ (l ks : List K), (keysNew ks l).Nodup := by
  intro l
  induction l with
  | nil => intro ks; simp [keysNew]
  | cons k rest ih =>
    intro ks
    by_cases hk : k ∈ ks
    · rw [keysNew, if_pos hk]
      exact ih ks
    · rw [keysNew, if_neg hk]
      refine List.nodup_cons.mpr ⟨?_, ih (k :: ks)⟩
      intro hmem
      exact keysNew_mem_not_in rest (k :: ks) k hmem (List.mem_cons_self _ _)

theorem mem_srcRows :
    ∀ (sources : List String) (db : DB K V) (p : K × V),
      p ∈ srcRows db sources → ∃ s ∈ sources, p ∈ tableOr db s := by
  intro sources
  induction sources with
  | nil => intro db p h; simp [srcRows] at h
  | cons s rest ih =>
    intro db p h
    rw [srcRows] at h
    rcases List.mem_append.mp h with hm | hm
    · exact ⟨s, by simp, hm⟩
    · obtain ⟨s2, hs2, hp⟩ := ih db p hm
      exact ⟨s2, by simp [hs2], hp⟩

/-- C2 (counterexample): the program does not determine the payload
tie-break the claim asserts.  The target `"t"` is empty; the first source
`"a"` holds key 1 with payload 10 and the second source `"b"` holds key 1
with payload 20.  Both the first-source-first enumeration `dedupKeep []`
and its reverse are admissible orderings of the compound SELECT's distinct
rows (`unionOrder`), yet the two admissible executions of the very same
`Union` call store different payloads — and under the reverse enumeration
the stored payload 20 comes from the *second* source even though the
first-listed source contains the key with payload 10.  So the code does not
guarantee that the payload chosen is the one from the earliest source in
argument order. -/
theorem claim_C2_cex :
    unionOrder (dedupKeep [] : List (Nat × Nat) → List (Nat × Nat)) ∧
    unionOrder (fun rows : List (Nat × Nat) => (dedupKeep [] rows).reverse) ∧
    lookupKey (tableOr (idStore [("t", []), ("a", [(1, 10)]), ("b", [(1, 20)])]
      ["t", "a", "b"]).db "a") 1 = some 10 ∧
    dbFind (UnionWith (dedupKeep [])
      (idStore [("t", []), ("a", [(1, 10)]), ("b", [(1, 20)])] ["t", "a", "b"])
      "t" ["a", "b"]).2.db "t" = some [(1, 10)] ∧
    dbFind (UnionWith (fun rows => (dedupKeep [] rows).reverse)
      (idStore [("t", []), ("a", [(1, 10)]), ("b", [(1, 20)])] ["t", "a", "b"])
      "t" ["a", "b"]).2.db "t" = some [(1, 20)] ∧
    ([(1, 10)] : Rows Nat Nat) ≠ [(1, 20)] := by
  refine ⟨fun rows => List.Perm.refl _, fun rows => List.reverse_perm _,
    by decide, by decide, by decide, by decide⟩

/-- C2 (amended): for every admissible enumeration order of the compound
SELECT, `Union` inserts exactly one row per key that occurs in some source
and is absent from the target — the inserted keys are pairwise distinct —
never touches the target's pre-existing rows (they survive verbatim as a
prefix), and returns the number of rows inserted.  Every inserted row is a
row of one of the sources, so the payload stored for a key shared by
several sources is one of those sources' payloads for it; which source wins
depends on the backing engine's unspecified enumeration order, and every
source key absent from the target does get inserted.  Sources are required
to exist, as the single INSERT..SELECT statement fails wholesale
otherwise. -/
theorem claim_C2 [DecidableEq K] [DecidableEq V]
    (ord : List (K × V) → List (K × V)) (b : Store T K V) (target : String)
    (sources : List String)
    (hord : unionOrder ord)
    (hv : validName target = true) (hvs : ∀ s ∈ sources, validName s = true)
    (hc : cacheConsistent b)
    (hs : ∀ s ∈ sources, (dbFind b.db s).isSome = true) :
    (UnionWith ord b target sources).1 =
      (((newRowsAfter (rowKeys (tableOr b.db target))
          (ord (srcRows b.db sources))).length : Int), none) ∧
    dbFind (UnionWith ord b target sources).2.db target =
      some (tableOr b.db target ++
        newRowsAfter (rowKeys (tableOr b.db target)) (ord (srcRows b.db sources))) ∧
    (∀ k v, (k, v) ∈ newRowsAfter (rowKeys (tableOr b.db target))
        (ord (srcRows b.db sources)) →
      hasKey (tableOr b.db target) k = false ∧
      ∃ s ∈ sources, (k, v) ∈ tableOr b.db s) ∧
    (∀ k, hasKey (srcRows b.db sources) k = true →
      hasKey (tableOr b.db target) k = false →
      hasKey (newRowsAfter (rowKeys (tableOr b.db target))
        (ord (srcRows b.db sources))) k = true) ∧
    (rowKeys (newRowsAfter (rowKeys (tableOr b.db target))
      (ord (srcRows b.db sources)))).Nodup := by
  have hver : verifyNames target sources = true := verifyNames_eq_true target sources hv hvs
  have hpres : ∀ s ∈ sources, dbFind (ensureTable b target).db s = dbFind b.db s :=
    fun s hsm => ensureTable_db_preserves b target s (hs s hsm)
  have hcoll : collectRows (ensureTable b target).db sources =
      some (srcRows b.db sources) := by
    rw [collectRows_congr sources _ b.db hpres]
    exact collectRows_eq_srcRows sources b.db hs
  have htfind : dbFind (ensureTable b target).db target = some (tableOr b.db target) :=
    ensureTable_find_self b target hc
  have hins := insertIgnoreAll_spec (ord (srcRows b.db sources))
    (tableOr b.db target) (rowKeys (tableOr b.db target)) (fun k => Iff.rfl)
  refine ⟨?_, ?_, ?_, ?_, ?_⟩
  · cases sources with
    | nil =>
      have h0 : ord ([] : List (K × V)) = [] := List.perm_nil.mp (hord [])
      rw [UnionWith.eq_def, if_pos hver]
      simp [srcRows, h0, newRowsAfter]
    | cons s rest =>
      rw [UnionWith.eq_def, if_pos hver]
      dsimp only
      rw [htfind, hcoll]
      dsimp only
      rw [hins]
  · cases sources with
    | nil =>
      have h0 : ord ([] : List (K × V)) = [] := List.perm_nil.mp (hord [])
      rw [UnionWith.eq_def, if_pos hver]
      dsimp only
      rw [htfind]
      simp [srcRows, h0, newRowsAfter]
    | cons s rest =>
      rw [UnionWith.eq_def, if_pos hver]
      dsimp only
      rw [htfind, hcoll]
      dsimp only
      rw [hins]
      dsimp only
      exact dbSet_find_self (ensureTable b target).db target _ (by rw [htfind]; rfl)
  · intro k v hmem
    obtain ⟨hnotmem, hlook⟩ := newRowsAfter_mem (ord (srcRows b.db sources))
      (rowKeys (tableOr b.db target)) k v hmem
    have hmem2 : (k, v) ∈ ord (srcRows b.db sources) :=
      lookupKey_mem (ord (srcRows b.db sources)) k v hlook
    have hmem3 : (k, v) ∈ dedupKeep [] (srcRows b.db sources) :=
      ((hord (srcRows b.db sources)).mem_iff).mp hmem2
    have hmem4 : (k, v) ∈ srcRows b.db sources :=
      dedupKeep_subset (srcRows b.db sources) [] (k, v) hmem3
    exact ⟨hasKey_eq_false_of_not_mem _ k hnotmem,
      mem_srcRows sources b.db (k, v) hmem4⟩
  · intro k hk hnot
    have h1 : k ∈ rowKeys (dedupKeep [] (srcRows b.db sources)) :=
      (hasKey_iff_mem _ k).mp (by rw [dedupKeep_hasKey]; exact hk)
    have h2 : k ∈ rowKeys (ord (srcRows b.db sources)) :=
      (((hord (srcRows b.db sources)).map Prod.fst).mem_iff).mpr h1
    have hnotmem : k ∉ rowKeys (tableOr b.db target) := by
      intro hm
      rw [(hasKey_iff_mem _ k).mpr hm] at hnot
      simp at hnot
    exact newRowsAfter_complete _ _ k ((hasKey_iff_mem _ k).mpr h2) hnotmem
  · rw [rowKeys_newRowsAfter]
    exact keysNew_nodup _ _

/-- C2 witness: the amended claim at the first-source-first admissible
enumeration, on a store whose target holds key 5 while the sources share
key 1: two rows are inserted, the pre-existing row survives as the prefix,
and the stored payload for key 1 is one of the sources' payloads. -/
theorem claim_C2_witness :
    (UnionWith (dedupKeep []) (idStore [("t", [(5, 50)]), ("a", [(1, 10)]),
      ("b", [(1, 20), (2, 30)])] ["t", "a", "b"]) "t" ["a", "b"]).1 = (2, none) ∧
    dbFind (UnionWith (dedupKeep []) (idStore [("t", [(5, 50)]), ("a", [(1, 10)]),
      ("b", [(1, 20), (2, 30)])] ["t", "a", "b"]) "t" ["a", "b"]).2.db "t" =
      some [(5, 50), (1, 10), (2, 30)] := by
  have h := claim_C2 (dedupKeep []) (idStore [("t", [(5, 50)]), ("a", [(1, 10)]),
    ("b", [(1, 20), (2, 30)])] ["t", "a", "b"]) "t" ["a", "b"]
    (fun rows => List.Perm.refl _) (by decide) (by decide)
    (cacheConsistent_of_all _ (by decide)) (by decide)
  exact ⟨h.1.trans (by decide), h.2.1.trans (by decide)⟩

/-- C9 (counterexample): with a custom key function (element mod 10), the
set `"foo"` already stores element 1 (key 1, payload 1).  `Add "foo" [11]`
succeeds — it returns `(0, nil)`, the key 1 being taken — yet
`RetrieveIfExists "foo" 11` returns the previously stored element 1, whose
canonical serialization (payload 1) differs from 11's canonical
serialization (payload 11).  The returned key matches, the payload does
not, refuting the round-trip claim for an `Add` that succeeded without
inserting. -/
theorem claim_C9_cex :
    (Add (modStore [("foo", [(1, 1)])] ["foo"]) "foo" [11]).1 = (0, none) ∧
    RetrieveIfExists (Add (modStore [("foo", [(1, 1)])] ["foo"]) "foo" [11]).2
      "foo" 11 = (some 1, none) ∧
    (modStore [("foo", [(1, 1)])] ["foo"]).mapper 11 = some (1, 11) ∧
    (modStore [("foo", [(1, 1)])] ["foo"]).mapper 1 = some (1, 1) ∧
    (1 : Nat) ≠ 11 := by
  refine ⟨by decide, by decide, by decide, by decide, by decide⟩

/-- C9 (amended): after `Add(name, e)` succeeds *and e's key was not
already present* (so e was newly inserted), `RetrieveIfExists(name, e)`
returns a stored value whose key matches e's and whose payload equals e's
canonical serialization (assuming the decoder inverts the serialization, as
`json.Unmarshal` does for `json.Marshal` output); when e's key was already
present the stored payload of the earlier element is returned instead.  A
probe whose key is absent from an existing set yields an explicit absent
result — a nil pointer — with no error. -/
theorem claim_C9 [DecidableEq K] (b : Store T K V) (name : String) (e : T) (k : K) (v : V)
    (hv : validName name = true) (hc : cacheConsistent b)
    (hmap : b.mapper e = some (k, v))
    (hnew : hasKey (tableOr b.db name) k = false)
    (hdec : ∃ t0, b.decode v = some t0 ∧ b.mapper t0 = some (k, v)) :
    (Add b name [e]).1 = (1, none) ∧
    (∃ t0, RetrieveIfExists (Add b name [e]).2 name e = (some t0, none) ∧
      b.mapper t0 = some (k, v)) ∧
    (∀ (probe : T) (k2 : K) (v2 : V) (rows : Rows K V),
      b.mapper probe = some (k2, v2) → dbFind b.db name = some rows →
      hasKey rows k2 = false → RetrieveIfExists b name probe = (none, none)) := by
  have hm : ∀ x ∈ [e], (b.mapper x).isSome = true := by
    intro x hx
    rw [List.mem_singleton.mp hx, hmap]
    rfl
  have hA := add_eq_ok insertIgnoreStep b name [e] hv hc hm
  have happly : applyAll insertIgnoreStep (tableOr b.db name) ([e].filterMap b.mapper) =
      (tableOr b.db name ++ [(k, v)], 1) := by
    rw [List.filterMap_cons, hmap]
    simp only [List.filterMap_nil, applyAll, insertIgnoreStep, hnew]
    simp [hnew]
  have hfind : dbFind (Add b name [e]).2.db name =
      some (tableOr b.db name ++ [(k, v)]) := by
    rw [Add, hA, happly]
    exact dbSet_find_self (ensureTable b name).db name _
      (by rw [ensureTable_find_self b name hc]; rfl)
  have hmapper : (Add b name [e]).2.mapper = b.mapper := by
    rw [Add, hA]
    exact ensureTable_mapper b name
  have hdecode : (Add b name [e]).2.decode = b.decode := by
    rw [Add, hA]
    exact ensureTable_decode b name
  obtain ⟨t0, hdec1, hdec2⟩ := hdec
  refine ⟨?_, ⟨t0, ?_, hdec2⟩, ?_⟩
  · rw [Add, hA, happly]
    rfl
  · have hlk : lookupKey (tableOr b.db name ++ [(k, v)]) k = some v := by
      rw [lookupKey_append, lookupKey_eq_none_of_not_hasKey (tableOr b.db name) k hnew]
      simp [lookupKey]
    rw [RetrieveIfExists, if_pos (verifyNames_eq_true name [] hv (by simp)),
      hmapper, hmap, hfind]
    dsimp only
    rw [hlk]
    dsimp only
    rw [hdecode, hdec1]
  · intro probe k2 v2 rows hp hrows habs
    rw [RetrieveIfExists, if_pos (verifyNames_eq_true name [] hv (by simp)), hp, hrows]
    dsimp only
    rw [lookupKey_eq_none_of_not_hasKey rows k2 habs]

/-- C9 witness: the amended claim at a fresh store with the identity-style
mapper — adding 7 inserts it and retrieving 7 returns the stored 7. -/
theorem claim_C9_witness :
    (Add (idStore [] []) "foo" [7]).1 = (1, none) ∧
    RetrieveIfExists (Add (idStore [] []) "foo" [7]).2 "foo" 7 = (some 7, none) := by
  have h := claim_C9 (idStore [] []) "foo" 7 7 7 (by decide)
    (cacheConsistent_of_all _ (by decide)) (by decide) (by decide)
    ⟨7, by decide, by decide⟩
  exact ⟨h.1, by decide⟩

end Bigset
